import Mathlib

/-!
Verification of the PyGitLog parser (`Parser`, `Commit`, `Developer`,
`Timestamp` in `__init__.py`) against its natural-language specification.

The Python code is embedded shallowly:
* Python objects live in explicit heaps (`commitHeap`, `devHeap`); an
  object reference is its index, so Python reference equality is index
  equality, and in-place mutation is `List.set` at that index.
* Python `dict`s are insertion-ordered association lists (`alookup`,
  `aset`), matching CPython's insert-or-update-in-place semantics.
* Fallible Python operations (attribute access on `None`, `list.pop` on
  an empty list, `re.findall(...)[0]` on no match, `dict[...]` on a
  missing key) return `Except PError`.
-/

deriving instance DecidableEq for Except

namespace PyGitLog

/-- `Timestamp(epoch, tz)`: epoch and timezone kept as raw strings. -/
structure Timestamp where
  epoch : String
  timezone : String
deriving DecidableEq

/-- A value of the `parents` dict of a commit: either the placeholder
hash string stored by `_handleKeyValue` (`parents[content] = content`)
or a reference (heap index) to a `Commit` object. -/
inductive PValue where
  | str (s : String)
  | commit (cid : Nat)
deriving DecidableEq

/-- `Commit(hashKey, author, committer, parents, tree)`. `author` and
`committer` are `Developer` references (indices into `devHeap`); the
`parents` dict maps a parent hash to a `PValue`. -/
structure Commit where
  hashKey : String
  author : Option Nat
  committer : Option Nat
  parents : List (String × PValue)
  tree : Option String
deriving DecidableEq

/-- `Developer(name, email)` with its `commits` dict mapping a commit
hash to a `Commit` reference (index into `commitHeap`). -/
structure Developer where
  name : String
  email : String
  commits : List (String × Nat)
deriving DecidableEq

/-- Default used for total heap reads; never read on reachable indices. -/
def defaultCommit : Commit := ⟨"", none, none, [], none⟩

/-- Default used for total heap reads; never read on reachable indices. -/
def defaultDev : Developer := ⟨"", "", []⟩

/-- Errors the Python code can raise while parsing:
`noneCommit` is `AttributeError` from dereferencing `self._currentCommit`
when it is `None`; `emptyPop` is `IndexError` from `parts.pop()` on an
empty list; `noEmailMatch` is `IndexError` from `re.findall("<.*>", k)[0]`
when the pattern does not match; `keyError k` is `KeyError` from
`self._commits[k]` in `_resolveCommits`. -/
inductive PError where
  | noneCommit
  | emptyPop
  | noEmailMatch
  | keyError (k : String)
deriving DecidableEq

/-- Lookup in an insertion-ordered dict (first matching key). -/
def alookup {α : Type} : List (String × α) → String → Option α
  | [], _ => none
  | (k, v) :: ps, key => if k = key then some v else alookup ps key

/-- `d[key] = val` on an insertion-ordered dict: update the existing
entry in place, else append a new entry at the end (CPython semantics). -/
def aset {α : Type} : List (String × α) → String → α → List (String × α)
  | [], key, val => [(key, val)]
  | (k, v) :: ps, key, val =>
    if k = key then (key, val) :: ps else (k, v) :: aset ps key val

/-- Python `text.split(sep)` for a one-character separator: keeps empty
pieces and yields `[""]` on the empty string. -/
def splitChar : List Char → Char → List (List Char)
  | [], _ => [[]]
  | c :: cs, sep =>
    if c = sep then [] :: splitChar cs sep
    else
      match splitChar cs sep with
      | [] => [[c]]
      | g :: gs => (c :: g) :: gs

/-- String-level wrapper for `splitChar`. -/
def strSplitOn (s : String) (sep : Char) : List String :=
  (splitChar s.toList sep).map (fun cs => ⟨cs⟩)

/-- Python `s.replace(pat, rep)` (all leftmost non-overlapping
occurrences), on character lists, with a fuel argument that makes the
recursion structural; `fuel = length of the input` always suffices. -/
def replaceAllAux (pat rep : List Char) : Nat → List Char → List Char
  | 0, l => l
  | _ + 1, [] => []
  | n + 1, c :: cs =>
    if pat ≠ [] ∧ pat.isPrefixOf (c :: cs) then
      rep ++ replaceAllAux pat rep n ((c :: cs).drop pat.length)
    else
      c :: replaceAllAux pat rep n cs

/-- Python `s.replace(pat, rep)`. -/
def strReplace (s pat rep : String) : String :=
  ⟨replaceAllAux pat.toList rep.toList s.toList.length s.toList⟩

/-- `re.findall("<.*>", devKey)` followed by `.replace("<", "").replace(">", "")`:
with a greedy `.*`, the sole match (if any) runs from the first `<` to
the last `>` of the string, provided the first `<` precedes the last
`>`; the two `replace` calls then strip every angle bracket inside the
match. Returns `none` when the pattern has no match. -/
def extractEmail (devKey : String) : Option String :=
  let cs := devKey.toList
  match cs.findIdx? (fun c => c = '<'), cs.reverse.findIdx? (fun c => c = '>') with
  | some i, some jr =>
    let j := cs.length - 1 - jr
    if i < j then
      some ⟨((cs.take (j + 1)).drop i).filter (fun c => c != '<' && c != '>')⟩
    else none
  | _, _ => none

/-- `Developer.__str__`: `"{name} <{email}>"`. -/
def devStr (d : Developer) : String :=
  d.name ++ " <" ++ d.email ++ ">"

/-- The whole mutable state of one `Parser.parse` run: the two object
heaps plus the fields set by `Parser.clear` (`_currentCommit`,
`_commits`, `_authors`, `_committers`, `_developers`). Registry values
are heap indices (Python object references). -/
structure ParseState where
  commitHeap : List Commit
  devHeap : List Developer
  currentCommit : Option Nat
  commits : List (String × Nat)
  authors : List (String × Nat)
  committers : List (String × Nat)
  developers : List (String × Nat)
deriving DecidableEq

/-- State after `Parser.clear()`. -/
def initState : ParseState := ⟨[], [], none, [], [], [], []⟩

/-- The interning key of an author/committer line's content: the line
split on single spaces with the final two tokens (timezone, epoch)
popped off, rejoined with spaces — `devKey` in
`_findDeveloperAndTimestamp`. Junk (`""`) when fewer than two tokens. -/
def devKeyOf (content : String) : String :=
  match (strSplitOn content ' ').reverse with
  | _tz :: _epoch :: restRev => String.intercalate " " restRev.reverse
  | _ => ""

/-- `Parser._findDeveloperAndTimestamp`: pop timezone and epoch, look the
remaining `devKey` up in the `_developers` interning dict, else extract
the email with the unguarded regex match, derive the name by deleting
`" <email>"`, allocate the `Developer` and intern it. Returns the state,
the `Developer` reference and the `Timestamp`. -/
def findDeveloperAndTimestamp (s : ParseState) (text : String) :
    Except PError (ParseState × Nat × Timestamp) :=
  match (strSplitOn text ' ').reverse with
  | [] => .error .emptyPop
  | [_] => .error .emptyPop
  | tz :: epoch :: restRev =>
    let timestamp : Timestamp := ⟨epoch, tz⟩
    let devKey := String.intercalate " " restRev.reverse
    match alookup s.developers devKey with
    | some d => .ok (s, d, timestamp)
    | none =>
      match extractEmail devKey with
      | none => .error .noEmailMatch
      | some email =>
        let name := strReplace devKey (" <" ++ email ++ ">") ""
        let d := s.devHeap.length
        .ok ({ s with
                devHeap := s.devHeap ++ [⟨name, email, []⟩],
                developers := s.developers ++ [(devKey, d)] },
             d, timestamp)

/-- `Parser._handleKeyValue`, one dispatch on the keyword. Every Python
statement is mirrored in order, including the `AttributeError` raised by
dereferencing `self._currentCommit` when it is `None`. -/
def handleKeyValue (s : ParseState) (keyword content : String) :
    Except PError ParseState :=
  if keyword = "commit" then
    let s1 :=
      match s.currentCommit with
      | some cid =>
        { s with commits := aset s.commits ((s.commitHeap.getD cid defaultCommit).hashKey) cid }
      | none => s
    .ok { s1 with
           commitHeap := s1.commitHeap ++ [⟨content, none, none, [], none⟩],
           currentCommit := some s1.commitHeap.length }
  else if keyword = "author" then
    match findDeveloperAndTimestamp s content with
    | .error e => .error e
    | .ok (s1, d, _ts) =>
      let key := devStr (s1.devHeap.getD d defaultDev)
      let s2 :=
        if (alookup s1.authors key).isSome then s1
        else { s1 with authors := s1.authors ++ [(key, d)] }
      match s2.currentCommit with
      | none => .error .noneCommit
      | some cid =>
        let s3 := { s2 with
          commitHeap := s2.commitHeap.set cid
            { s2.commitHeap.getD cid defaultCommit with author := some d } }
        match alookup s3.authors key with
        | none => .error (.keyError key)
        | some aid =>
          let adev := s3.devHeap.getD aid defaultDev
          let h := (s3.commitHeap.getD cid defaultCommit).hashKey
          .ok { s3 with
                 devHeap := s3.devHeap.set aid
                   { adev with commits := aset adev.commits h cid } }
  else if keyword = "committer" then
    match findDeveloperAndTimestamp s content with
    | .error e => .error e
    | .ok (s1, d, _ts) =>
      let key := devStr (s1.devHeap.getD d defaultDev)
      let s2 :=
        if (alookup s1.committers key).isSome then s1
        else { s1 with committers := s1.committers ++ [(key, d)] }
      match s2.currentCommit with
      | none => .error .noneCommit
      | some cid =>
        .ok { s2 with
               commitHeap := s2.commitHeap.set cid
                 { s2.commitHeap.getD cid defaultCommit with committer := some d } }
  else if keyword = "parent" then
    match s.currentCommit with
    | none => .error .noneCommit
    | some cid =>
      let c := s.commitHeap.getD cid defaultCommit
      let v : PValue :=
        match alookup s.commits content with
        | some pcid => .commit pcid
        | none => .str content
      .ok { s with commitHeap := s.commitHeap.set cid { c with parents := aset c.parents content v } }
  else if keyword = "tree" then
    match s.currentCommit with
    | none => .error .noneCommit
    | some cid =>
      let c := s.commitHeap.getD cid defaultCommit
      .ok { s with commitHeap := s.commitHeap.set cid { c with tree := some content } }
  else
    .ok s

/-- The line classifier in the body of `Parser.parse`: blank lines and
lines starting with a space are skipped (`none`), as are non-blank lines
with no space at all (logged and skipped via `continue`); otherwise the
line splits into the keyword before the first space and the content
after it. -/
def classifyLine (line : String) : Option (String × String) :=
  match line.toList with
  | [] => none
  | c :: cs =>
    if c = ' ' then none
    else if ' ' ∈ (c :: cs) then
      some (⟨(c :: cs).takeWhile (fun a => a ≠ ' ')⟩,
            ⟨((c :: cs).dropWhile (fun a => a ≠ ' ')).tail⟩)
    else none

/-- One iteration of the `for line in lines` loop of `Parser.parse`. -/
def stepLine (s : ParseState) (line : String) : Except PError ParseState :=
  match classifyLine line with
  | none => .ok s
  | some (kw, content) => handleKeyValue s kw content

/-- The whole `for line in lines` loop. -/
def parseLines : ParseState → List String → Except PError ParseState
  | s, [] => .ok s
  | s, l :: ls =>
    match stepLine s l with
    | .error e => .error e
    | .ok s' => parseLines s' ls

/-- "Grab the last commit": `self._commits[self._currentCommit.hashKey] =
self._currentCommit` — an `AttributeError` when no commit is open. -/
def flushLast (s : ParseState) : Except PError ParseState :=
  match s.currentCommit with
  | none => .error .noneCommit
  | some cid =>
    .ok { s with
           commits := aset s.commits ((s.commitHeap.getD cid defaultCommit).hashKey) cid,
           currentCommit := none }

/-- The inner loop of `Parser._resolveCommits` for one commit: each
`parents` value that is still a string is replaced by
`self._commits[parentKey]`, raising `KeyError` when the key is absent. -/
def resolveParents (reg : List (String × Nat)) :
    List (String × PValue) → Except PError (List (String × PValue))
  | [] => .ok []
  | (k, v) :: ps =>
    match v with
    | .str _ =>
      match alookup reg k with
      | none => .error (.keyError k)
      | some c =>
        match resolveParents reg ps with
        | .error e => .error e
        | .ok rest => .ok ((k, .commit c) :: rest)
    | .commit c =>
      match resolveParents reg ps with
      | .error e => .error e
      | .ok rest => .ok ((k, .commit c) :: rest)

/-- The outer loop of `Parser._resolveCommits` over the entries of
`self._commits`, mutating each registered commit's `parents` in place. -/
def resolveLoop (reg : List (String × Nat)) :
    List Commit → List (String × Nat) → Except PError (List Commit)
  | heap, [] => .ok heap
  | heap, (_, cid) :: rest =>
    let c := heap.getD cid defaultCommit
    match resolveParents reg c.parents with
    | .error e => .error e
    | .ok ps => resolveLoop reg (heap.set cid { c with parents := ps }) rest

/-- `Parser._resolveCommits`. -/
def resolveCommits (s : ParseState) : Except PError ParseState :=
  match resolveLoop s.commits s.commitHeap s.commits with
  | .error e => .error e
  | .ok heap => .ok { s with commitHeap := heap }

/-- `Parser.parse` on an already-split list of lines: the line loop,
then the final flush, then the resolution pass. -/
def parseList (ls : List String) : Except PError ParseState :=
  match parseLines initState ls with
  | .error e => .error e
  | .ok s =>
    match flushLast s with
    | .error e => .error e
    | .ok s' => resolveCommits s'

/-- `Parser.parse(text)`: `clear`, split on newlines, and run the
pipeline. -/
def parse (text : String) : Except PError ParseState :=
  parseList (strSplitOn text '\n')

/-- Projection of a successful parse result (used to state concrete
facts about parse outcomes without spelling the whole state out). -/
def okState : Except PError ParseState → ParseState
  | .ok s => s
  | .error _ => initState

/-- Composite-string coherence: every interned developer's
reconstructed `"name <email>"` string (`Developer.__str__`) equals the
key it is interned under in `_developers`. This holds for ordinary
author/committer lines (one angle-bracketed email, at the end of the
name part) but can fail when the greedy email regex picks up a bracket
embedded in the name. -/
def SelfKeyed (s : ParseState) : Prop :=
  ∀ p ∈ s.developers, devStr (s.devHeap.getD p.2 defaultDev) = p.1

instance (s : ParseState) : Decidable (SelfKeyed s) := by
  unfold SelfKeyed; infer_instance

/-- The commit hash carried by one line: `[c]` for a line classified as
a `commit` header, `[]` otherwise. -/
def chLine (l : String) : List String :=
  match classifyLine l with
  | some (kw, c) => if kw = "commit" then [c] else []
  | none => []

/-- The hashes of all `commit` header lines of a line list, in order. -/
def commitHashes : List String → List String
  | [] => []
  | l :: ls => chLine l ++ commitHashes ls

/-- "Close the open commit": the effect of a `commit` header (and of the
final flush) on the registry when a commit is currently open. -/
def commitClose (s : ParseState) : ParseState :=
  match s.currentCommit with
  | some cid =>
    { s with commits := aset s.commits ((s.commitHeap.getD cid defaultCommit).hashKey) cid }
  | none => s

/-- The full effect of a `commit` header: close the open commit, then
allocate and open a fresh `Commit` with `hashKey = c`. -/
def commitStep (s : ParseState) (c : String) : ParseState :=
  { commitClose s with
     commitHeap := (commitClose s).commitHeap ++ [⟨c, none, none, [], none⟩],
     currentCommit := some (commitClose s).commitHeap.length }

/-- Characterization of a successful `author` dispatch: the developer is
interned, conditionally inserted into `_authors`, set as the open
commit's author, and the open commit is recorded in the `commits` map of
whichever developer the `_authors` registry holds under the composite
string. -/
def AuthorShape (s s' : ParseState) (c : String) : Prop :=
  ∃ ts s1 d key s2 cid aid,
    findDeveloperAndTimestamp s c = .ok (s1, d, ts) ∧
    key = devStr (s1.devHeap.getD d defaultDev) ∧
    s2 = (if (alookup s1.authors key).isSome then s1
          else { s1 with authors := s1.authors ++ [(key, d)] }) ∧
    s2.currentCommit = some cid ∧
    alookup s2.authors key = some aid ∧
    s' = { s2 with
            commitHeap := s2.commitHeap.set cid
              { s2.commitHeap.getD cid defaultCommit with author := some d },
            devHeap := s2.devHeap.set aid
              { s2.devHeap.getD aid defaultDev with
                 commits := aset (s2.devHeap.getD aid defaultDev).commits
                   (((s2.commitHeap.set cid
                       { s2.commitHeap.getD cid defaultCommit with
                          author := some d }).getD cid defaultCommit).hashKey) cid } }

/-- Characterization of a successful `committer` dispatch: same interning
as `author`, conditional insertion into `_committers`, and the open
commit's `committer` field set; no `commits` map is touched. -/
def CommitterShape (s s' : ParseState) (c : String) : Prop :=
  ∃ ts s1 d key s2 cid,
    findDeveloperAndTimestamp s c = .ok (s1, d, ts) ∧
    key = devStr (s1.devHeap.getD d defaultDev) ∧
    s2 = (if (alookup s1.committers key).isSome then s1
          else { s1 with committers := s1.committers ++ [(key, d)] }) ∧
    s2.currentCommit = some cid ∧
    s' = { s2 with
            commitHeap := s2.commitHeap.set cid
              { s2.commitHeap.getD cid defaultCommit with committer := some d } }

/-- Characterization of a successful `parent` dispatch: the open
commit's `parents` dict gains (or overwrites) the entry at the content
key, eagerly linked when the hash is already registered and a string
placeholder otherwise. -/
def ParentShape (s s' : ParseState) (c : String) : Prop :=
  ∃ cid v,
    s.currentCommit = some cid ∧
    v = (match alookup s.commits c with
         | some pcid => PValue.commit pcid
         | none => PValue.str c) ∧
    s' = { s with
            commitHeap := s.commitHeap.set cid
              { s.commitHeap.getD cid defaultCommit with
                 parents := aset (s.commitHeap.getD cid defaultCommit).parents c v } }

/-- Characterization of a successful `tree` dispatch. -/
def TreeShape (s s' : ParseState) (c : String) : Prop :=
  ∃ cid,
    s.currentCommit = some cid ∧
    s' = { s with
            commitHeap := s.commitHeap.set cid
              { s.commitHeap.getD cid defaultCommit with tree := some c } }

/-- A state with one unresolved parent placeholder, for exercising the
resolution pass on its own. -/
def resolveDemoPre : ParseState :=
  ⟨[⟨"a", none, none, [("b", .str "b")], none⟩, ⟨"b", none, none, [], none⟩],
   [], none, [("a", 0), ("b", 1)], [], [], []⟩

/-- `resolveDemoPre` after one resolution pass. -/
def resolveDemoPost : ParseState :=
  ⟨[⟨"a", none, none, [("b", .commit 1)], none⟩, ⟨"b", none, none, [], none⟩],
   [], none, [("a", 0), ("b", 1)], [], [], []⟩

/-- State after parsing the single line `commit h1`. -/
def wS1 : ParseState :=
  ⟨[⟨"h1", none, none, [], none⟩], [], some 0, [], [], [], []⟩

/-- `wS1` after the author line `author A <a@x> 100 +0000`. -/
def wS2 : ParseState :=
  ⟨[⟨"h1", some 0, none, [], none⟩], [⟨"A", "a@x", [("h1", 0)]⟩], some 0,
   [], [("A <a@x>", 0)], [], [("A <a@x>", 0)]⟩

/-- `wS2` after the line `commit h2`. -/
def wS3 : ParseState :=
  ⟨[⟨"h1", some 0, none, [], none⟩, ⟨"h2", none, none, [], none⟩],
   [⟨"A", "a@x", [("h1", 0)]⟩], some 1, [("h1", 0)], [("A <a@x>", 0)], [], [("A <a@x>", 0)]⟩

/-- `wS3` after a second, byte-identical author line. -/
def wS4 : ParseState :=
  ⟨[⟨"h1", some 0, none, [], none⟩, ⟨"h2", some 0, none, [], none⟩],
   [⟨"A", "a@x", [("h1", 0), ("h2", 1)]⟩], some 1, [("h1", 0)], [("A <a@x>", 0)], [],
   [("A <a@x>", 0)]⟩

/-- `wS2` after the committer line `committer A <a@x> 100 +0000`. -/
def wK4 : ParseState :=
  ⟨[⟨"h1", some 0, some 0, [], none⟩], [⟨"A", "a@x", [("h1", 0)]⟩], some 0,
   [], [("A <a@x>", 0)], [("A <a@x>", 0)], [("A <a@x>", 0)]⟩

/-- `wS1` after the committer line `committer A <a@x> 100 +0000`. -/
def wK2 : ParseState :=
  ⟨[⟨"h1", none, some 0, [], none⟩], [⟨"A", "a@x", []⟩], some 0,
   [], [], [("A <a@x>", 0)], [("A <a@x>", 0)]⟩

/-- Facts preserved by every parser step: heaps only grow, interning and
registry tables are insert-only (existing bindings survive), a
developer's identity (name, email) and a commit's hash never change
after allocation. -/
def Mono (s s' : ParseState) : Prop :=
  s.devHeap.length ≤ s'.devHeap.length ∧
  s.commitHeap.length ≤ s'.commitHeap.length ∧
  (∀ k dd, alookup s.developers k = some dd → alookup s'.developers k = some dd) ∧
  (∀ k dd, alookup s.authors k = some dd → alookup s'.authors k = some dd) ∧
  (∀ k dd, alookup s.committers k = some dd → alookup s'.committers k = some dd) ∧
  (∀ i, i < s.devHeap.length →
    (s'.devHeap.getD i defaultDev).name = (s.devHeap.getD i defaultDev).name ∧
    (s'.devHeap.getD i defaultDev).email = (s.devHeap.getD i defaultDev).email) ∧
  (∀ i, i < s.commitHeap.length →
    (s'.commitHeap.getD i defaultCommit).hashKey = (s.commitHeap.getD i defaultCommit).hashKey)

/-- Commit-side well-formedness over the heap, the open-commit reference
and the commit registry: the open commit reference and all registry
references are in range, registry entries point at commits carrying the
registered hash, and every `parents` value is either a string
placeholder or an in-range commit reference carrying the entry's key as
its hash. -/
def WFSc (heap : List Commit) (cur : Option Nat) (reg : List (String × Nat)) : Prop :=
  (∀ cid, cur = some cid → cid < heap.length) ∧
  (∀ k c, alookup reg k = some c →
     c < heap.length ∧ (heap.getD c defaultCommit).hashKey = k) ∧
  (∀ c ∈ heap, ∀ p ∈ c.parents,
     (∃ z, p.2 = PValue.str z) ∨
     ∃ pc, p.2 = PValue.commit pc ∧ pc < heap.length ∧
       (heap.getD pc defaultCommit).hashKey = p.1)

/-- Commit-side well-formedness of a parse state. -/
def WFS (s : ParseState) : Prop :=
  WFSc s.commitHeap s.currentCommit s.commits

/-- Developer-side well-formedness: interning references are in range,
interning keys are distinct (the table is extended only on a failed
lookup), and every `_authors`/`_committers` entry is keyed by the
composite string of an in-range developer that is itself interned in
`_developers`. -/
def DWFS (s : ParseState) : Prop :=
  (∀ p ∈ s.developers, p.2 < s.devHeap.length) ∧
  (s.developers.map Prod.fst).Nodup ∧
  (∀ p ∈ s.authors, devStr (s.devHeap.getD p.2 defaultDev) = p.1 ∧
     p.2 < s.devHeap.length ∧ ∃ k, (k, p.2) ∈ s.developers) ∧
  (∀ p ∈ s.committers, devStr (s.devHeap.getD p.2 defaultDev) = p.1 ∧
     p.2 < s.devHeap.length ∧ ∃ k, (k, p.2) ∈ s.developers)

/-- Registry coverage: every hash occurring in the commit heap is either
already registered in `_commits` or is the hash of the currently open
commit (which the next `commit` header or the final flush registers). -/
def Registered (s : ParseState) : Prop :=
  ∀ h ∈ s.commitHeap.map Commit.hashKey,
    (∃ c, alookup s.commits h = some c) ∨
    (∃ cid, s.currentCommit = some cid ∧
      (s.commitHeap.getD cid defaultCommit).hashKey = h)

end PyGitLog

namespace PyGitLog

theorem alookup_aset {α : Type} (l : List (String × α)) (k : String) (v : α) (k' : String) :
    alookup (aset l k v) k' = if k' = k then some v else alookup l k' := by
  induction l with
  | nil =>
    by_cases h : k' = k
    · simp [aset, alookup, h]
    · have hk : ¬ k = k' := fun hh => h hh.symm
      simp [aset, alookup, h, hk]
  | cons p ps ih =>
    obtain ⟨pk, pv⟩ := p
    by_cases hpk : pk = k
    · subst hpk
      by_cases h : k' = pk
      · subst h; simp [aset, alookup]
      · simp [aset, alookup, h, eq_comm]
    · by_cases hpk' : pk = k'
      · subst hpk'
        have hk : ¬ pk = k := hpk
        simp [aset, alookup, hpk, hk]
      · simp [aset, alookup, hpk, hpk', ih]

theorem alookup_aset_self {α : Type} (l : List (String × α)) (k : String) (v : α) :
    alookup (aset l k v) k = some v := by
  simp [alookup_aset]

theorem alookup_aset_ne {α : Type} (l : List (String × α)) (k : String) (v : α)
    (k' : String) (h : k' ≠ k) :
    alookup (aset l k v) k' = alookup l k' := by
  simp [alookup_aset, h]

theorem alookup_append_of_some {α : Type} (l l2 : List (String × α)) (k : String) (v : α)
    (h : alookup l k = some v) : alookup (l ++ l2) k = some v := by
  induction l with
  | nil => simp [alookup] at h
  | cons p ps ih =>
    obtain ⟨pk, pv⟩ := p
    by_cases hk : pk = k <;> simp_all [alookup]

theorem alookup_append_single_of_none {α : Type} (l : List (String × α)) (k : String) (v : α)
    (h : alookup l k = none) : alookup (l ++ [(k, v)]) k = some v := by
  induction l with
  | nil => simp [alookup]
  | cons p ps ih =>
    obtain ⟨pk, pv⟩ := p
    by_cases hk : pk = k <;> simp_all [alookup]

theorem alookup_mem {α : Type} (l : List (String × α)) (k : String) (v : α)
    (h : alookup l k = some v) : (k, v) ∈ l := by
  induction l with
  | nil => simp [alookup] at h
  | cons p ps ih =>
    obtain ⟨pk, pv⟩ := p
    by_cases hk : pk = k <;> simp_all [alookup]

theorem mem_aset_sub {α : Type} (l : List (String × α)) (k : String) (v : α)
    (p : String × α) (h : p ∈ aset l k v) : p = (k, v) ∨ p ∈ l := by
  induction l with
  | nil => simpa [aset] using h
  | cons q qs ih =>
    obtain ⟨qk, qv⟩ := q
    by_cases hk : qk = k
    · subst hk
      simp [aset] at h
      rcases h with h | h
      · exact Or.inl (by simp [h])
      · exact Or.inr (by simp [h])
    · simp [aset, hk] at h
      rcases h with h | h
      · exact Or.inr (by simp [h])
      · rcases ih h with h' | h'
        · exact Or.inl h'
        · exact Or.inr (by simp [h'])

theorem getD_set_self {α : Type} (l : List α) (i : Nat) (a d : α) (h : i < l.length) :
    (l.set i a).getD i d = a := by
  induction l generalizing i with
  | nil => simp at h
  | cons x xs ih =>
    cases i with
    | zero => simp [List.set, List.getD]
    | succ n =>
      simp only [List.set, List.getD_cons_succ]
      exact ih n (by simpa using h)

theorem getD_set_ne {α : Type} (l : List α) (i j : Nat) (a d : α) (h : i ≠ j) :
    (l.set i a).getD j d = l.getD j d := by
  induction l generalizing i j with
  | nil => simp [List.set]
  | cons x xs ih =>
    cases i with
    | zero =>
      cases j with
      | zero => exact absurd rfl h
      | succ m => simp [List.set]
    | succ n =>
      cases j with
      | zero => simp [List.set]
      | succ m =>
        simp only [List.set, List.getD_cons_succ]
        exact ih n m (fun hh => h (by simp [hh]))

theorem getD_set_out {α : Type} (l : List α) (i : Nat) (a d : α) (h : l.length ≤ i) :
    (l.set i a).getD i d = l.getD i d := by
  rw [List.set_eq_of_length_le h]

theorem getD_append_left {α : Type} (l l2 : List α) (i : Nat) (d : α) (h : i < l.length) :
    (l ++ l2).getD i d = l.getD i d := by
  induction l generalizing i with
  | nil => simp at h
  | cons x xs ih =>
    cases i with
    | zero => simp
    | succ n =>
      simp only [List.cons_append, List.getD_cons_succ]
      exact ih n (by simpa using h)

theorem getD_append_len {α : Type} (l : List α) (a d : α) :
    (l ++ [a]).getD l.length d = a := by
  induction l with
  | nil => simp [List.getD]
  | cons x xs ih => simpa using ih

theorem getD_append_out {α : Type} (l : List α) (a d : α) (i : Nat) (h : l.length < i) :
    (l ++ [a]).getD i d = d := by
  have : (l ++ [a]).length ≤ i := by simpa using h
  simp [List.getD_eq_getElem?_getD, List.getElem?_eq_none this]

theorem set_getD_self {α : Type} (l : List α) (i : Nat) (d : α) :
    l.set i (l.getD i d) = l := by
  induction l generalizing i with
  | nil => simp
  | cons x xs ih =>
    cases i with
    | zero => rfl
    | succ n =>
      show x :: xs.set n ((x :: xs).getD (n + 1) d) = x :: xs
      rw [List.getD_cons_succ, ih n]

theorem getD_lt_length_mem {α : Type} (l : List α) (i : Nat) (d : α) (h : i < l.length) :
    l.getD i d ∈ l := by
  induction l generalizing i with
  | nil => simp at h
  | cons x xs ih =>
    cases i with
    | zero => simp
    | succ n =>
      simp only [List.getD_cons_succ]
      exact List.mem_cons_of_mem x (ih n (by simpa using h))

theorem mem_set_sub {α : Type} (l : List α) (i : Nat) (a x : α) (h : x ∈ l.set i a) :
    x = a ∨ x ∈ l := by
  induction l generalizing i with
  | nil => simp [List.set] at h
  | cons y ys ih =>
    cases i with
    | zero =>
      simp only [List.set, List.mem_cons] at h
      rcases h with h | h
      · exact Or.inl h
      · exact Or.inr (List.mem_cons_of_mem y h)
    | succ n =>
      simp only [List.set, List.mem_cons] at h
      rcases h with h | h
      · exact Or.inr (by simp [h])
      · rcases ih n h with h' | h'
        · exact Or.inl h'
        · exact Or.inr (by simp [h'])

theorem map_getD {α β : Type} (f : α → β) (l : List α) (i : Nat) (d : α) (h : i < l.length) :
    (l.map f).getD i (f d) = f (l.getD i d) := by
  induction l generalizing i with
  | nil => simp at h
  | cons x xs ih =>
    cases i with
    | zero => simp
    | succ n =>
      simp only [List.map_cons, List.getD_cons_succ]
      exact ih n (by simpa using h)

theorem nodup_map_getD_inj {α β : Type} (f : α → β) (l : List α) (i j : Nat) (d : α)
    (hnd : (l.map f).Nodup) (hi : i < l.length) (hj : j < l.length)
    (h : f (l.getD i d) = f (l.getD j d)) : i = j := by
  have hi' : i < (l.map f).length := by simpa using hi
  have hj' : j < (l.map f).length := by simpa using hj
  have h1 : (l.map f).get ⟨i, hi'⟩ = f (l.getD i d) := by
    simp [List.get_map, List.getD_eq_getElem?_getD, List.getElem?_eq_getElem hi]
  have h2 : (l.map f).get ⟨j, hj'⟩ = f (l.getD j d) := by
    simp [List.get_map, List.getD_eq_getElem?_getD, List.getElem?_eq_getElem hj]
  have hinj := List.nodup_iff_injective_get.mp hnd
  have := @hinj ⟨i, hi'⟩ ⟨j, hj'⟩ (by rw [h1, h2, h])
  simpa using congrArg Fin.val this

theorem hashKey_getD_set (l : List Commit) (cid : Nat) (c' : Commit)
    (hc : c'.hashKey = (l.getD cid defaultCommit).hashKey) :
    ((l.set cid c').getD cid defaultCommit).hashKey = (l.getD cid defaultCommit).hashKey := by
  by_cases h : cid < l.length
  · rw [getD_set_self _ _ _ _ h]; exact hc
  · rw [List.set_eq_of_length_le (le_of_not_lt h)]

theorem handle_commit (s : ParseState) (c : String) :
    handleKeyValue s "commit" c = .ok (commitStep s c) := by
  unfold handleKeyValue commitStep commitClose
  cases s.currentCommit <;> simp

theorem findDev_cases (s : ParseState) (t : String) (s1 : ParseState) (d : Nat) (ts : Timestamp)
    (h : findDeveloperAndTimestamp s t = .ok (s1, d, ts)) :
    (alookup s.developers (devKeyOf t) = some d ∧ s1 = s) ∨
    (alookup s.developers (devKeyOf t) = none ∧ d = s.devHeap.length ∧
     ∃ email,
       extractEmail (devKeyOf t) = some email ∧
       s1 = { s with
               devHeap := s.devHeap ++
                 [⟨strReplace (devKeyOf t) (" <" ++ email ++ ">") "", email, []⟩],
               developers := s.developers ++ [(devKeyOf t, d)] }) := by
  rcases hrv : (strSplitOn t ' ').reverse with _ | ⟨tz, _ | ⟨ep, rest⟩⟩
  · simp [findDeveloperAndTimestamp, hrv] at h
  · simp [findDeveloperAndTimestamp, hrv] at h
  · have hdk : devKeyOf t = String.intercalate " " rest.reverse := by
      simp [devKeyOf, hrv]
    simp only [findDeveloperAndTimestamp, hrv] at h
    rcases hdl : alookup s.developers (String.intercalate " " rest.reverse) with _ | d0
    · rw [hdl] at h
      rcases hee : extractEmail (String.intercalate " " rest.reverse) with _ | email
      · rw [hee] at h; simp at h
      · rw [hee] at h
        simp only [Except.ok.injEq, Prod.mk.injEq] at h
        obtain ⟨hs1, hd, _hts⟩ := h
        right
        refine ⟨by rw [hdk]; exact hdl, hd.symm, email, by rw [hdk]; exact hee, ?_⟩
        rw [← hs1, ← hd, hdk]
    · rw [hdl] at h
      simp only [Except.ok.injEq, Prod.mk.injEq] at h
      obtain ⟨hs1, hd, _hts⟩ := h
      left
      rw [hdk, hdl, hd, hs1]
      exact ⟨rfl, rfl⟩

theorem stepLine_cases (s : ParseState) (l : String) (s' : ParseState)
    (h : stepLine s l = .ok s') :
    (s' = s ∧ (classifyLine l = none ∨
      ∃ kw c0, classifyLine l = some (kw, c0) ∧ kw ≠ "commit" ∧ kw ≠ "author" ∧
        kw ≠ "committer" ∧ kw ≠ "parent" ∧ kw ≠ "tree")) ∨
    (∃ c, classifyLine l = some ("commit", c) ∧ s' = commitStep s c) ∨
    (∃ c, classifyLine l = some ("author", c) ∧ AuthorShape s s' c) ∨
    (∃ c, classifyLine l = some ("committer", c) ∧ CommitterShape s s' c) ∨
    (∃ c, classifyLine l = some ("parent", c) ∧ ParentShape s s' c) ∨
    (∃ c, classifyLine l = some ("tree", c) ∧ TreeShape s s' c) := by
  unfold stepLine at h
  rcases hcl : classifyLine l with _ | ⟨kw, c⟩
  · rw [hcl] at h
    simp only [Except.ok.injEq] at h
    exact Or.inl ⟨h.symm, Or.inl rfl⟩
  · rw [hcl] at h
    dsimp only at h
    by_cases h1 : kw = "commit"
    · subst h1
      rw [handle_commit] at h
      simp only [Except.ok.injEq] at h
      exact Or.inr (Or.inl ⟨c, rfl, h.symm⟩)
    · unfold handleKeyValue at h
      rw [if_neg h1] at h
      by_cases h2 : kw = "author"
      · subst h2
        rw [if_pos rfl] at h
        rcases hfd : findDeveloperAndTimestamp s c with e | v
        · rw [hfd] at h; simp at h
        · obtain ⟨s1, d, ts⟩ := v
          rw [hfd] at h
          dsimp only at h
          rcases hcc : (if (alookup s1.authors (devStr (s1.devHeap.getD d defaultDev))).isSome
              then s1
              else { s1 with authors :=
                s1.authors ++ [(devStr (s1.devHeap.getD d defaultDev), d)] }).currentCommit
            with _ | cid
          · rw [hcc] at h; simp at h
          · rw [hcc] at h
            dsimp only at h
            rcases hak : alookup (if (alookup s1.authors (devStr (s1.devHeap.getD d
                defaultDev))).isSome
              then s1
              else { s1 with authors :=
                s1.authors ++ [(devStr (s1.devHeap.getD d defaultDev), d)] }).authors
                (devStr (s1.devHeap.getD d defaultDev)) with _ | aid
            · rw [hak] at h; simp at h
            · rw [hak] at h
              simp only [Except.ok.injEq] at h
              refine Or.inr (Or.inr (Or.inl ⟨c, rfl, ts, s1, d, _, _, cid, aid, hfd, rfl, rfl,
                hcc, hak, ?_⟩))
              rw [← h, hcc]
      · rw [if_neg h2] at h
        by_cases h3 : kw = "committer"
        · subst h3
          rw [if_pos rfl] at h
          rcases hfd : findDeveloperAndTimestamp s c with e | v
          · rw [hfd] at h; simp at h
          · obtain ⟨s1, d, ts⟩ := v
            rw [hfd] at h
            dsimp only at h
            rcases hcc : (if (alookup s1.committers (devStr (s1.devHeap.getD d
                defaultDev))).isSome
              then s1
              else { s1 with committers :=
                s1.committers ++ [(devStr (s1.devHeap.getD d defaultDev), d)] }).currentCommit
              with _ | cid
            · rw [hcc] at h; simp at h
            · rw [hcc] at h
              simp only [Except.ok.injEq] at h
              refine Or.inr (Or.inr (Or.inr (Or.inl ⟨c, rfl, ts, s1, d, _, _, cid, hfd, rfl, rfl,
                hcc, ?_⟩)))
              rw [← h, hcc]
        · rw [if_neg h3] at h
          by_cases h4 : kw = "parent"
          · subst h4
            rw [if_pos rfl] at h
            rcases hcc : s.currentCommit with _ | cid
            · rw [hcc] at h; simp at h
            · rw [hcc] at h
              dsimp only at h
              simp only [Except.ok.injEq] at h
              refine Or.inr (Or.inr (Or.inr (Or.inr (Or.inl ⟨c, rfl, cid, _, hcc, rfl, ?_⟩))))
              rw [← h, hcc]
          · rw [if_neg h4] at h
            by_cases h5 : kw = "tree"
            · subst h5
              rw [if_pos rfl] at h
              rcases hcc : s.currentCommit with _ | cid
              · rw [hcc] at h; simp at h
              · rw [hcc] at h
                simp only [Except.ok.injEq] at h
                refine Or.inr (Or.inr (Or.inr (Or.inr (Or.inr ⟨c, rfl, cid, hcc, ?_⟩))))
                rw [← h, hcc]
            · rw [if_neg h5] at h
              simp only [Except.ok.injEq] at h
              exact Or.inl ⟨h.symm, Or.inr ⟨kw, c, rfl, h1, h2, h3, h4, h5⟩⟩

theorem mono_refl (s : ParseState) : Mono s s :=
  ⟨le_refl _, le_refl _, fun _ _ h => h, fun _ _ h => h, fun _ _ h => h,
    fun _ _ => ⟨rfl, rfl⟩, fun _ _ => rfl⟩

theorem mono_trans (a b c : ParseState) (h1 : Mono a b) (h2 : Mono b c) : Mono a c := by
  obtain ⟨l1, l2, f1, f2, f3, g1, g2⟩ := h1
  obtain ⟨m1, m2, e1, e2, e3, k1, k2⟩ := h2
  refine ⟨le_trans l1 m1, le_trans l2 m2,
    fun k dd h => e1 k dd (f1 k dd h),
    fun k dd h => e2 k dd (f2 k dd h),
    fun k dd h => e3 k dd (f3 k dd h),
    fun i hi => ?_, fun i hi => ?_⟩
  · obtain ⟨hn, he⟩ := g1 i hi
    obtain ⟨hn2, he2⟩ := k1 i (lt_of_lt_of_le hi l1)
    exact ⟨hn2.trans hn, he2.trans he⟩
  · exact (k2 i (lt_of_lt_of_le hi l2)).trans (g2 i hi)

theorem mono_set_commit (s : ParseState) (cid : Nat) (c' : Commit)
    (hc : c'.hashKey = (s.commitHeap.getD cid defaultCommit).hashKey) :
    Mono s { s with commitHeap := s.commitHeap.set cid c' } := by
  refine ⟨le_refl _, by simp, fun _ _ h => h, fun _ _ h => h, fun _ _ h => h,
    fun i _ => ⟨rfl, rfl⟩, fun i _ => ?_⟩
  by_cases hcid : i = cid
  · subst hcid; exact hashKey_getD_set _ _ _ hc
  · rw [getD_set_ne _ _ _ _ _ fun hh => hcid hh.symm]

theorem mono_set_dev (s : ParseState) (aid : Nat) (d' : Developer)
    (hn : d'.name = (s.devHeap.getD aid defaultDev).name)
    (he : d'.email = (s.devHeap.getD aid defaultDev).email) :
    Mono s { s with devHeap := s.devHeap.set aid d' } := by
  refine ⟨by simp, le_refl _, fun _ _ h => h, fun _ _ h => h, fun _ _ h => h,
    fun i _ => ?_, fun i _ => rfl⟩
  by_cases haid : i = aid
  · subst haid
    by_cases hi : i < s.devHeap.length
    · rw [getD_set_self _ _ _ _ hi]; exact ⟨hn, he⟩
    · rw [List.set_eq_of_length_le (le_of_not_lt hi)]; exact ⟨rfl, rfl⟩
  · rw [getD_set_ne _ _ _ _ _ fun hh => haid hh.symm]; exact ⟨rfl, rfl⟩

theorem mono_commitStep (s : ParseState) (c : String) : Mono s (commitStep s c) := by
  unfold commitStep commitClose
  cases hcur : s.currentCommit <;>
    exact ⟨by simp, by simp, fun _ _ h => h, fun _ _ h => h, fun _ _ h => h,
      fun i _ => ⟨rfl, rfl⟩, fun i hi => by rw [getD_append_left _ _ _ _ hi]⟩

theorem mono_set_commit_upd (s : ParseState) (cid : Nat) (f : Commit → Commit)
    (hf : ∀ cc, (f cc).hashKey = cc.hashKey) :
    Mono s { s with
             commitHeap := s.commitHeap.set cid (f (s.commitHeap.getD cid defaultCommit)) } :=
  mono_set_commit s cid _ (hf _)

theorem mono_set_dev_upd (s : ParseState) (aid : Nat) (f : Developer → Developer)
    (hn : ∀ dd, (f dd).name = dd.name) (he : ∀ dd, (f dd).email = dd.email) :
    Mono s { s with
             devHeap := s.devHeap.set aid (f (s.devHeap.getD aid defaultDev)) } :=
  mono_set_dev s aid _ (hn _) (he _)

theorem findDev_mono (s : ParseState) (t : String) (s1 : ParseState) (d : Nat) (ts : Timestamp)
    (h : findDeveloperAndTimestamp s t = .ok (s1, d, ts)) : Mono s s1 := by
  rcases findDev_cases s t s1 d ts h with ⟨_, rfl⟩ | ⟨_, _, email, _, rfl⟩
  · exact mono_refl _
  · refine ⟨by simp, le_refl _, fun k dd hh => alookup_append_of_some _ _ _ _ hh,
      fun _ _ hh => hh, fun _ _ hh => hh, fun i hi => ?_, fun i _ => rfl⟩
    constructor <;> rw [getD_append_left _ _ _ _ hi]

theorem mono_authors_if (s1 : ParseState) (key : String) (d : Nat) :
    Mono s1 (if (alookup s1.authors key).isSome then s1
             else { s1 with authors := s1.authors ++ [(key, d)] }) := by
  by_cases hif : (alookup s1.authors key).isSome
  · rw [if_pos hif]; exact mono_refl s1
  · rw [if_neg hif]
    exact ⟨le_refl _, le_refl _, fun _ _ h => h,
      fun _ _ h => alookup_append_of_some _ _ _ _ h, fun _ _ h => h,
      fun _ _ => ⟨rfl, rfl⟩, fun _ _ => rfl⟩

theorem mono_committers_if (s1 : ParseState) (key : String) (d : Nat) :
    Mono s1 (if (alookup s1.committers key).isSome then s1
             else { s1 with committers := s1.committers ++ [(key, d)] }) := by
  by_cases hif : (alookup s1.committers key).isSome
  · rw [if_pos hif]; exact mono_refl s1
  · rw [if_neg hif]
    exact ⟨le_refl _, le_refl _, fun _ _ h => h, fun _ _ h => h,
      fun _ _ h => alookup_append_of_some _ _ _ _ h,
      fun _ _ => ⟨rfl, rfl⟩, fun _ _ => rfl⟩

theorem stepLine_mono (s : ParseState) (l : String) (s' : ParseState)
    (h : stepLine s l = .ok s') : Mono s s' := by
  rcases stepLine_cases s l s' h with ⟨rfl, -⟩ | ⟨c, -, rfl⟩ | ⟨c, -, hsh⟩ | ⟨c, -, hsh⟩ |
    ⟨c, -, hsh⟩ | ⟨c, -, hsh⟩
  · exact mono_refl _
  · exact mono_commitStep _ c
  · obtain ⟨ts, s1, d, key, s2, cid, aid, hfd, hkey, hs2, hcc, hak, rfl⟩ := hsh
    subst hkey
    have m1 : Mono s s1 := findDev_mono _ c s1 d ts hfd
    have m2 : Mono s1 s2 := by rw [hs2]; exact mono_authors_if s1 _ d
    have m3 := mono_set_commit_upd s2 cid (fun cc => { cc with author := some d })
      (fun _ => rfl)
    have m4 := mono_set_dev_upd
      { s2 with
        commitHeap := s2.commitHeap.set cid
          { s2.commitHeap.getD cid defaultCommit with author := some d } }
      aid
      (fun dd =>
        { dd with
          commits := aset dd.commits
            (((s2.commitHeap.set cid
                { s2.commitHeap.getD cid defaultCommit with
                  author := some d }).getD cid defaultCommit).hashKey) cid })
      (fun _ => rfl) (fun _ => rfl)
    exact mono_trans _ _ _ m1 (mono_trans _ _ _ m2 (mono_trans _ _ _ m3 m4))
  · obtain ⟨ts, s1, d, key, s2, cid, hfd, hkey, hs2, hcc, rfl⟩ := hsh
    subst hkey
    have m1 : Mono s s1 := findDev_mono _ c s1 d ts hfd
    have m2 : Mono s1 s2 := by rw [hs2]; exact mono_committers_if s1 _ d
    have m3 := mono_set_commit_upd s2 cid (fun cc => { cc with committer := some d })
      (fun _ => rfl)
    exact mono_trans _ _ _ m1 (mono_trans _ _ _ m2 m3)
  · obtain ⟨cid, v, hcc, hv, rfl⟩ := hsh
    exact mono_set_commit_upd _ cid
      (fun cc => { cc with parents := aset cc.parents c v }) (fun _ => rfl)
  · obtain ⟨cid, hcc, rfl⟩ := hsh
    exact mono_set_commit_upd _ cid (fun cc => { cc with tree := some c }) (fun _ => rfl)

theorem parseLines_rel (R : ParseState → ParseState → Prop)
    (hrefl : ∀ u, R u u)
    (htrans : ∀ a b c, R a b → R b c → R a c)
    (hstep : ∀ u l u', stepLine u l = .ok u' → R u u') :
    ∀ ls u u', parseLines u ls = .ok u' → R u u' := by
  intro ls
  induction ls with
  | nil =>
    intro u u' h
    simp only [parseLines, Except.ok.injEq] at h
    rw [← h]
    exact hrefl u
  | cons l ls ih =>
    intro u u' h
    unfold parseLines at h
    rcases hs : stepLine u l with e | u1
    · rw [hs] at h; simp at h
    · rw [hs] at h
      exact htrans _ _ _ (hstep u l u1 hs) (ih u1 u' h)

theorem parseLines_mono (ls : List String) (s s' : ParseState)
    (h : parseLines s ls = .ok s') : Mono s s' :=
  parseLines_rel Mono mono_refl mono_trans stepLine_mono ls s s' h

theorem resolveParents_all_commit (reg : List (String × Nat)) (ps : List (String × PValue))
    (h : ∀ p ∈ ps, ∃ cc, p.2 = PValue.commit cc) :
    resolveParents reg ps = .ok ps := by
  induction ps with
  | nil => rfl
  | cons p rest ih =>
    obtain ⟨k, v⟩ := p
    obtain ⟨cc, hv⟩ := h (k, v) (List.mem_cons_self _ _)
    simp only at hv
    subst hv
    simp only [resolveParents]
    rw [ih (fun q hq => h q (List.mem_cons_of_mem _ hq))]

theorem resolveParents_ok_all_commit (reg : List (String × Nat)) (ps ps' : List (String × PValue))
    (h : resolveParents reg ps = .ok ps') :
    ∀ p ∈ ps', ∃ cc, p.2 = PValue.commit cc := by
  induction ps generalizing ps' with
  | nil =>
    simp only [resolveParents, Except.ok.injEq] at h
    rw [← h]
    intro p hp
    simp at hp
  | cons q rest ih =>
    obtain ⟨k, v⟩ := q
    rcases v with z | cc
    · simp only [resolveParents] at h
      rcases hr : alookup reg k with _ | c0
      · rw [hr] at h; simp at h
      · rw [hr] at h
        rcases hrec : resolveParents reg rest with e | rest'
        · rw [hrec] at h; simp at h
        · rw [hrec] at h
          simp only [Except.ok.injEq] at h
          rw [← h]
          intro p hp
          rcases List.mem_cons.mp hp with rfl | hp'
          · exact ⟨c0, rfl⟩
          · exact ih rest' hrec p hp'
    · simp only [resolveParents] at h
      rcases hrec : resolveParents reg rest with e | rest'
      · rw [hrec] at h; simp at h
      · rw [hrec] at h
        simp only [Except.ok.injEq] at h
        rw [← h]
        intro p hp
        rcases List.mem_cons.mp hp with rfl | hp'
        · exact ⟨cc, rfl⟩
        · exact ih rest' hrec p hp'

theorem resolveParents_lookup_commit (reg : List (String × Nat)) (ps ps' : List (String × PValue))
    (h : resolveParents reg ps = .ok ps') (k : String) (c : Nat)
    (hl : alookup ps k = some (.commit c)) : alookup ps' k = some (.commit c) := by
  induction ps generalizing ps' with
  | nil => simp [alookup] at hl
  | cons q rest ih =>
    obtain ⟨k0, v⟩ := q
    rcases v with z | cc
    · simp only [resolveParents] at h
      rcases hr : alookup reg k0 with _ | c0
      · rw [hr] at h; simp at h
      · rw [hr] at h
        rcases hrec : resolveParents reg rest with e | rest'
        · rw [hrec] at h; simp at h
        · rw [hrec] at h
          simp only [Except.ok.injEq] at h
          rw [← h]
          by_cases hk : k0 = k
          · subst hk
            simp [alookup] at hl
          · simp only [alookup] at hl
            rw [if_neg hk] at hl
            simp only [alookup]
            rw [if_neg hk]
            exact ih rest' hrec hl
    · simp only [resolveParents] at h
      rcases hrec : resolveParents reg rest with e | rest'
      · rw [hrec] at h; simp at h
      · rw [hrec] at h
        simp only [Except.ok.injEq] at h
        rw [← h]
        by_cases hk : k0 = k
        · subst hk
          simp only [alookup, if_pos rfl] at hl ⊢
          exact hl
        · simp only [alookup] at hl ⊢
          rw [if_neg hk] at hl ⊢
          exact ih rest' hrec hl

theorem resolveLoop_all_resolved (reg : List (String × Nat)) :
    ∀ (entries : List (String × Nat)) (heap heap' : List Commit)
      (done : List (String × Nat)),
      resolveLoop reg heap entries = .ok heap' →
      (∀ e ∈ done, ∀ p ∈ (heap.getD e.2 defaultCommit).parents, ∃ cc, p.2 = PValue.commit cc) →
      ∀ e ∈ done ++ entries, ∀ p ∈ (heap'.getD e.2 defaultCommit).parents,
        ∃ cc, p.2 = PValue.commit cc := by
  intro entries
  induction entries with
  | nil =>
    intro heap heap' done h hdone
    simp only [resolveLoop, Except.ok.injEq] at h
    rw [← h]
    simpa using hdone
  | cons e0 rest ih =>
    intro heap heap' done h hdone
    obtain ⟨k0, cid0⟩ := e0
    simp only [resolveLoop] at h
    rcases hps : resolveParents reg ((heap.getD cid0 defaultCommit).parents) with e | ps'
    · rw [hps] at h; simp at h
    · rw [hps] at h
      have hall : ∀ p ∈ ps', ∃ cc, p.2 = PValue.commit cc :=
        resolveParents_ok_all_commit reg _ ps' hps
      have hdone' : ∀ e ∈ done ++ [(k0, cid0)],
          ∀ p ∈ ((heap.set cid0
            { heap.getD cid0 defaultCommit with parents := ps' }).getD e.2 defaultCommit).parents,
          ∃ cc, p.2 = PValue.commit cc := by
        intro e he p hp
        rcases List.mem_append.mp he with he' | he'
        · by_cases hcid : e.2 = cid0
          · rw [hcid] at hp
            by_cases hr : cid0 < heap.length
            · rw [getD_set_self _ _ _ _ hr] at hp
              exact hall p hp
            · rw [List.set_eq_of_length_le (le_of_not_lt hr)] at hp
              rw [← hcid] at hp
              exact hdone e he' p hp
          · rw [getD_set_ne _ _ _ _ _ fun hh => hcid hh.symm] at hp
            exact hdone e he' p hp
        · have he2 : e = (k0, cid0) := by simpa using he'
          rw [he2] at hp
          by_cases hr : cid0 < heap.length
          · rw [getD_set_self _ _ _ _ hr] at hp
            exact hall p hp
          · rw [List.set_eq_of_length_le (le_of_not_lt hr)] at hp
            rw [List.getD_eq_getElem?_getD, List.getElem?_eq_none (le_of_not_lt hr)] at hp
            simp [defaultCommit] at hp
      have := ih _ heap' (done ++ [(k0, cid0)]) h hdone'
      intro e he
      apply this
      simp only [List.append_assoc, List.singleton_append]
      exact he

theorem resolveLoop_lookup_commit (reg : List (String × Nat)) :
    ∀ (entries : List (String × Nat)) (heap heap' : List Commit),
      resolveLoop reg heap entries = .ok heap' →
      ∀ cid k c, alookup (heap.getD cid defaultCommit).parents k = some (.commit c) →
        alookup (heap'.getD cid defaultCommit).parents k = some (.commit c) := by
  intro entries
  induction entries with
  | nil =>
    intro heap heap' h cid k c hl
    simp only [resolveLoop, Except.ok.injEq] at h
    rw [← h]
    exact hl
  | cons e0 rest ih =>
    intro heap heap' h cid k c hl
    obtain ⟨k0, cid0⟩ := e0
    simp only [resolveLoop] at h
    rcases hps : resolveParents reg ((heap.getD cid0 defaultCommit).parents) with e | ps'
    · rw [hps] at h; simp at h
    · rw [hps] at h
      apply ih _ heap' h cid k c
      by_cases hcid : cid = cid0
      · subst hcid
        by_cases hr : cid < heap.length
        · rw [getD_set_self _ _ _ _ hr]
          exact resolveParents_lookup_commit reg _ ps' hps k c hl
        · rw [List.set_eq_of_length_le (le_of_not_lt hr)]
          exact hl
      · rw [getD_set_ne _ _ _ _ _ fun hh => hcid hh.symm]
        exact hl

theorem resolveLoop_id (reg : List (String × Nat)) (heap : List Commit)
    (entries : List (String × Nat))
    (h : ∀ e ∈ entries, ∀ p ∈ (heap.getD e.2 defaultCommit).parents, ∃ cc, p.2 = PValue.commit cc) :
    resolveLoop reg heap entries = .ok heap := by
  induction entries with
  | nil => rfl
  | cons e0 rest ih =>
    obtain ⟨k0, cid0⟩ := e0
    simp only [resolveLoop]
    rw [resolveParents_all_commit reg _ (h (k0, cid0) (List.mem_cons_self _ _))]
    dsimp only
    have heq : heap.set cid0
        { hashKey := (heap.getD cid0 defaultCommit).hashKey,
          author := (heap.getD cid0 defaultCommit).author,
          committer := (heap.getD cid0 defaultCommit).committer,
          parents := (heap.getD cid0 defaultCommit).parents,
          tree := (heap.getD cid0 defaultCommit).tree } = heap :=
      set_getD_self heap cid0 defaultCommit
    rw [heq]
    exact ih fun e he => h e (List.mem_cons_of_mem _ he)

theorem alookup_none_not_mem {α : Type} (l : List (String × α)) (k : String)
    (h : alookup l k = none) : ∀ v, (k, v) ∉ l := by
  induction l with
  | nil => simp
  | cons p ps ih =>
    obtain ⟨pk, pv⟩ := p
    by_cases hk : pk = k
    · subst hk; simp [alookup] at h
    · simp only [alookup] at h
      rw [if_neg hk] at h
      intro v hv
      rcases List.mem_cons.mp hv with he | hm
      · exact hk (by injection he with h1 h2; exact h1.symm)
      · exact ih h v hm

theorem alookup_of_mem_nodup {α : Type} (l : List (String × α)) (k : String) (v : α)
    (hm : (k, v) ∈ l) (hnd : (l.map Prod.fst).Nodup) : alookup l k = some v := by
  induction l with
  | nil => simp at hm
  | cons p ps ih =>
    obtain ⟨pk, pv⟩ := p
    simp only [List.map_cons, List.nodup_cons] at hnd
    rcases List.mem_cons.mp hm with he | hm'
    · injection he with h1 h2
      subst h1; subst h2
      simp [alookup]
    · have hk : ¬ pk = k := by
        intro hh
        subst hh
        exact hnd.1 (List.mem_map.mpr ⟨(pk, v), hm', rfl⟩)
      simp only [alookup]
      rw [if_neg hk]
      exact ih hm' hnd.2

theorem alookup_none_key_fresh {α : Type} (l : List (String × α)) (k : String)
    (h : alookup l k = none) : k ∉ l.map Prod.fst := by
  intro hk
  obtain ⟨⟨k0, v0⟩, hm, he⟩ := List.mem_map.mp hk
  simp only at he
  subst he
  exact alookup_none_not_mem l _ h v0 hm

theorem stepLine_skip (s : ParseState) (l : String) (h : classifyLine l = none) :
    stepLine s l = .ok s := by
  simp [stepLine, h]

theorem parseLines_skip (ls : List String) (h : ∀ l ∈ ls, classifyLine l = none)
    (s : ParseState) : parseLines s ls = .ok s := by
  induction ls with
  | nil => rfl
  | cons l rest ih =>
    simp only [parseLines, stepLine_skip s l (h l (List.mem_cons_self _ _))]
    exact ih fun l' hl' => h l' (List.mem_cons_of_mem _ hl')

theorem parseLines_append (a b : List String) (u : ParseState) :
    parseLines u (a ++ b) =
      match parseLines u a with
      | .error e => .error e
      | .ok u1 => parseLines u1 b := by
  induction a generalizing u with
  | nil => rfl
  | cons l rest ih =>
    simp only [List.cons_append, parseLines]
    cases hs : stepLine u l <;> simp [ih]

theorem findDev_current (s : ParseState) (t : String) (s1 : ParseState) (d : Nat)
    (ts : Timestamp) (h : findDeveloperAndTimestamp s t = .ok (s1, d, ts)) :
    s1.currentCommit = s.currentCommit := by
  rcases findDev_cases s t s1 d ts h with ⟨_, rfl⟩ | ⟨_, _, email, _, rfl⟩ <;> rfl

theorem getD_out {α : Type} (l : List α) (i : Nat) (d : α) (h : l.length ≤ i) :
    l.getD i d = d := by
  simp [List.getD_eq_getElem?_getD, List.getElem?_eq_none h]

theorem devStr_getD_set (l : List Developer) (aid : Nat) (d' : Developer)
    (hn : d'.name = (l.getD aid defaultDev).name)
    (he : d'.email = (l.getD aid defaultDev).email) (i : Nat) :
    devStr ((l.set aid d').getD i defaultDev) = devStr (l.getD i defaultDev) := by
  by_cases hi : i = aid
  · subst hi
    by_cases hr : i < l.length
    · rw [getD_set_self _ _ _ _ hr]
      unfold devStr
      rw [hn, he]
    · rw [List.set_eq_of_length_le (le_of_not_lt hr)]
  · rw [getD_set_ne _ _ _ _ _ fun hh => hi hh.symm]

theorem devStr_getD_set_upd (l : List Developer) (aid : Nat) (f : Developer → Developer)
    (hn : ∀ dd, (f dd).name = dd.name) (he : ∀ dd, (f dd).email = dd.email) (i : Nat) :
    devStr ((l.set aid (f (l.getD aid defaultDev))).getD i defaultDev) =
      devStr (l.getD i defaultDev) :=
  devStr_getD_set l aid _ (hn _) (he _) i

theorem hashKey_getD_set_upd (l : List Commit) (cid : Nat) (f : Commit → Commit)
    (hf : ∀ cc, (f cc).hashKey = cc.hashKey) :
    ((l.set cid (f (l.getD cid defaultCommit))).getD cid defaultCommit).hashKey =
      (l.getD cid defaultCommit).hashKey :=
  hashKey_getD_set l cid _ (hf _)

theorem findDev_facts (s : ParseState) (t : String) (s1 : ParseState) (d : Nat) (ts : Timestamp)
    (h : findDeveloperAndTimestamp s t = .ok (s1, d, ts)) (hw : DWFS s) :
    DWFS s1 ∧ d < s1.devHeap.length ∧
    alookup s1.developers (devKeyOf t) = some d ∧
    s1.commitHeap = s.commitHeap ∧
    s1.currentCommit = s.currentCommit ∧
    s1.commits = s.commits ∧
    s1.authors = s.authors ∧
    s1.committers = s.committers ∧
    (∀ j, j ≠ d → s1.devHeap.getD j defaultDev = s.devHeap.getD j defaultDev) ∧
    (s1.devHeap.getD d defaultDev).commits = (s.devHeap.getD d defaultDev).commits ∧
    (∀ d0, alookup s.developers (devKeyOf t) = some d0 → d = d0) ∧
    (alookup s.developers (devKeyOf t) = none → d = s.devHeap.length) ∧
    (∃ ext, s1.developers = s.developers ++ ext) := by
  obtain ⟨hd1, hd2, hd3, hd4⟩ := hw
  rcases findDev_cases s t s1 d ts h with ⟨hlk, rfl⟩ | ⟨hnone, hd, email, hee, rfl⟩
  · refine ⟨⟨hd1, hd2, hd3, hd4⟩, hd1 _ (alookup_mem _ _ _ hlk), hlk, rfl, rfl, rfl, rfl, rfl,
      fun j _ => rfl, rfl, fun d0 h0 => by rw [hlk] at h0; exact Option.some.inj h0,
      fun h0 => by rw [hlk] at h0; exact absurd h0 (by simp), [], by simp⟩
  · subst hd
    have hfresh := alookup_none_key_fresh s.developers (devKeyOf t) hnone
    constructor
    · refine ⟨?_, ?_, ?_, ?_⟩
      · intro p hp
        simp only [List.length_append, List.length_cons, List.length_nil]
        rcases List.mem_append.mp hp with hp' | hp'
        · exact lt_of_lt_of_le (hd1 p hp') (by omega)
        · have : p = (devKeyOf t, s.devHeap.length) := by simpa using hp'
          rw [this]
          omega
      · rw [List.map_append]
        rw [List.nodup_append]
        refine ⟨hd2, List.nodup_singleton _, ?_⟩
        intro x hx hy
        simp only [List.map_cons, List.map_nil, List.mem_singleton] at hy
        subst hy
        exact hfresh hx
      · intro p hp
        obtain ⟨hps, hpl, k0, hpk⟩ := hd3 p hp
        refine ⟨?_, by simp only [List.length_append, List.length_cons]; omega,
          k0, List.mem_append_left _ hpk⟩
        rw [getD_append_left _ _ _ _ hpl]
        exact hps
      · intro p hp
        obtain ⟨hps, hpl, k0, hpk⟩ := hd4 p hp
        refine ⟨?_, by simp only [List.length_append, List.length_cons]; omega,
          k0, List.mem_append_left _ hpk⟩
        rw [getD_append_left _ _ _ _ hpl]
        exact hps
    · refine ⟨by simp, alookup_append_single_of_none _ _ _ hnone, rfl, rfl, rfl, rfl, rfl,
        ?_, ?_, fun d0 h0 => by rw [hnone] at h0; exact absurd h0 (by simp),
        fun _ => rfl, [(devKeyOf t, s.devHeap.length)], rfl⟩
      · intro j hj
        rcases lt_or_ge j s.devHeap.length with hlt | hge
        · exact getD_append_left _ _ _ _ hlt
        · have hgt : s.devHeap.length < j := lt_of_le_of_ne hge (fun hh => hj hh.symm)
          rw [getD_append_out _ _ _ _ hgt, getD_out _ _ _ hge]
      · rw [getD_append_len, getD_out _ _ _ (le_refl _)]
        rfl

theorem author_step_effect (s s' : ParseState) (c : String)
    (hsh : AuthorShape s s' c) (hwc : WFS s) (hwd : DWFS s) :
    ∃ d cid,
      s.currentCommit = some cid ∧
      s'.currentCommit = some cid ∧
      cid < s.commitHeap.length ∧
      alookup s'.developers (devKeyOf c) = some d ∧
      (∀ d0, alookup s.developers (devKeyOf c) = some d0 → d = d0) ∧
      (alookup s.developers (devKeyOf c) = none → d = s.devHeap.length) ∧
      s'.commitHeap.getD cid defaultCommit =
        { s.commitHeap.getD cid defaultCommit with author := some d } ∧
      (∀ i, i ≠ cid → s'.commitHeap.getD i defaultCommit = s.commitHeap.getD i defaultCommit) ∧
      (SelfKeyed s' →
        (s'.devHeap.getD d defaultDev).commits =
          aset ((s.devHeap.getD d defaultDev).commits)
            ((s.commitHeap.getD cid defaultCommit).hashKey) cid ∧
        (∀ j, j ≠ d → (s'.devHeap.getD j defaultDev).commits =
          (s.devHeap.getD j defaultDev).commits) ∧
        alookup s'.authors (devStr (s'.devHeap.getD d defaultDev)) = some d) := by
  obtain ⟨ts, s1, d, key, s2, cid, aid, hfd, hkey, hs2, hcc, hak, hs'⟩ := hsh
  obtain ⟨hw1, hdlt, hdev1, hch, hcur1, hcm, hau, hco, hstab, hdcm, hfun, hfresh0, ext, hext⟩ :=
    findDev_facts s c s1 d ts hfd hwd
  have hs2dev : s2.developers = s1.developers := by rw [hs2]; split <;> rfl
  have hs2heap : s2.commitHeap = s1.commitHeap := by rw [hs2]; split <;> rfl
  have hs2devHeap : s2.devHeap = s1.devHeap := by rw [hs2]; split <;> rfl
  have hs2cur : s2.currentCommit = s1.currentCommit := by rw [hs2]; split <;> rfl
  have hcur : s.currentCommit = some cid := by rw [← hcur1, ← hs2cur]; exact hcc
  have hcidlt : cid < s.commitHeap.length := hwc.1 cid hcur
  have hcidlt2 : cid < s2.commitHeap.length := by rw [hs2heap, hch]; exact hcidlt
  have hs'dev : s'.developers = s1.developers := by rw [hs']; exact hs2dev
  have hs'cur : s'.currentCommit = some cid := by rw [hs']; exact hcc
  have hs'heap : s'.commitHeap =
      s2.commitHeap.set cid { s2.commitHeap.getD cid defaultCommit with author := some d } := by
    rw [hs']
  have hs'devHeap : s'.devHeap = s2.devHeap.set aid
      { s2.devHeap.getD aid defaultDev with
        commits := aset (s2.devHeap.getD aid defaultDev).commits
          (((s2.commitHeap.set cid { s2.commitHeap.getD cid defaultCommit with
              author := some d }).getD cid defaultCommit).hashKey) cid } := by
    rw [hs']
  have hs'auth : s'.authors = s2.authors := by rw [hs']
  refine ⟨d, cid, hcur, hs'cur, hcidlt, ?_, hfun, hfresh0, ?_, ?_, ?_⟩
  · rw [hs'dev]; exact hdev1
  · rw [hs'heap, getD_set_self _ _ _ _ hcidlt2, hs2heap, hch]
  · intro i hi
    rw [hs'heap, getD_set_ne _ _ _ _ _ fun hh => hi hh.symm, hs2heap, hch]
  · intro hsk
    have hdevstr : ∀ i, devStr (s'.devHeap.getD i defaultDev) =
        devStr (s1.devHeap.getD i defaultDev) := by
      intro i
      rw [hs'devHeap, hs2devHeap]
      exact devStr_getD_set_upd s1.devHeap aid
        (fun dd =>
          { dd with
            commits := aset dd.commits
              (((s2.commitHeap.set cid { s2.commitHeap.getD cid defaultCommit with
                  author := some d }).getD cid defaultCommit).hashKey) cid })
        (fun _ => rfl) (fun _ => rfl) i
    have hmemd : (devKeyOf c, d) ∈ s'.developers := by
      rw [hs'dev]; exact alookup_mem _ _ _ hdev1
    have hkeyd := hsk _ hmemd
    dsimp only at hkeyd
    rw [hdevstr d] at hkeyd
    have hkeyc : key = devKeyOf c := by rw [hkey, hkeyd]
    have haid : aid = d := by
      by_cases hif : (alookup s1.authors key).isSome
      · have hs2eq : s2 = s1 := by rw [hs2, if_pos hif]
        rw [hs2eq] at hak
        have hmem := alookup_mem _ _ _ hak
        rw [hau] at hmem
        obtain ⟨hds, hlt, k0, hk0⟩ := hwd.2.2.1 (key, aid) hmem
        dsimp only at hds
        have hmem' : (k0, aid) ∈ s'.developers := by
          rw [hs'dev, hext]; exact List.mem_append_left _ hk0
        have h1 := hsk _ hmem'
        dsimp only at h1
        rw [hdevstr aid] at h1
        by_cases had : aid = d
        · exact had
        · rw [hstab aid had, hds] at h1
          have hnd' : (s'.developers.map Prod.fst).Nodup := by rw [hs'dev]; exact hw1.2.1
          have hlk0 : alookup s'.developers k0 = some aid :=
            alookup_of_mem_nodup _ _ _ hmem' hnd'
          rw [← h1, hkeyc, hs'dev, hdev1] at hlk0
          exact (Option.some.inj hlk0).symm
      · have hlknone : alookup s1.authors key = none :=
          Option.not_isSome_iff_eq_none.mp hif
        have hs2eq : s2 = { s1 with authors := s1.authors ++ [(key, d)] } := by
          rw [hs2, if_neg hif]
        rw [hs2eq] at hak
        dsimp only at hak
        rw [alookup_append_single_of_none _ _ _ hlknone] at hak
        exact (Option.some.inj hak).symm
    subst haid
    have hs2dlt : aid < s2.devHeap.length := by rw [hs2devHeap]; exact hdlt
    have hH : ((s2.commitHeap.set cid { s2.commitHeap.getD cid defaultCommit with
        author := some aid }).getD cid defaultCommit).hashKey =
        (s.commitHeap.getD cid defaultCommit).hashKey := by
      have h0 : ((s2.commitHeap.set cid { s2.commitHeap.getD cid defaultCommit with
          author := some aid }).getD cid defaultCommit).hashKey =
          (s2.commitHeap.getD cid defaultCommit).hashKey :=
        hashKey_getD_set_upd s2.commitHeap cid (fun cc => { cc with author := some aid })
          (fun _ => rfl)
      rw [h0, hs2heap, hch]
    refine ⟨?_, ?_, ?_⟩
    · rw [hs'devHeap, getD_set_self _ _ _ _ hs2dlt]
      dsimp only
      rw [hH, hs2devHeap, hdcm]
    · intro j hj
      rw [hs'devHeap, getD_set_ne _ _ _ _ _ fun hh => hj hh.symm, hs2devHeap, hstab j hj]
    · rw [hs'auth]
      have hkey' : devStr (s'.devHeap.getD aid defaultDev) = key := by
        rw [hdevstr aid, ← hkey]
      rw [hkey']
      exact hak

theorem committer_step_effect (s s' : ParseState) (c : String)
    (hsh : CommitterShape s s' c) (hwc : WFS s) (hwd : DWFS s) :
    ∃ d cid,
      s.currentCommit = some cid ∧
      s'.currentCommit = some cid ∧
      cid < s.commitHeap.length ∧
      alookup s'.developers (devKeyOf c) = some d ∧
      (∀ d0, alookup s.developers (devKeyOf c) = some d0 → d = d0) ∧
      (alookup s.developers (devKeyOf c) = none → d = s.devHeap.length) ∧
      s'.commitHeap.getD cid defaultCommit =
        { s.commitHeap.getD cid defaultCommit with committer := some d } ∧
      (∀ i, i ≠ cid → s'.commitHeap.getD i defaultCommit = s.commitHeap.getD i defaultCommit) ∧
      (∀ j, (s'.devHeap.getD j defaultDev).commits = (s.devHeap.getD j defaultDev).commits) ∧
      (SelfKeyed s' → alookup s'.committers (devStr (s'.devHeap.getD d defaultDev)) = some d) := by
  obtain ⟨ts, s1, d, key, s2, cid, hfd, hkey, hs2, hcc, hs'⟩ := hsh
  obtain ⟨hw1, hdlt, hdev1, hch, hcur1, hcm, hau, hco, hstab, hdcm, hfun, hfresh0, ext, hext⟩ :=
    findDev_facts s c s1 d ts hfd hwd
  have hs2dev : s2.developers = s1.developers := by rw [hs2]; split <;> rfl
  have hs2heap : s2.commitHeap = s1.commitHeap := by rw [hs2]; split <;> rfl
  have hs2devHeap : s2.devHeap = s1.devHeap := by rw [hs2]; split <;> rfl
  have hs2cur : s2.currentCommit = s1.currentCommit := by rw [hs2]; split <;> rfl
  have hs2comm : s2.committers =
      (if (alookup s1.committers key).isSome then s1.committers
       else s1.committers ++ [(key, d)]) := by
    rw [hs2]; split <;> rfl
  have hcur : s.currentCommit = some cid := by rw [← hcur1, ← hs2cur]; exact hcc
  have hcidlt : cid < s.commitHeap.length := hwc.1 cid hcur
  have hcidlt2 : cid < s2.commitHeap.length := by rw [hs2heap, hch]; exact hcidlt
  have hs'dev : s'.developers = s1.developers := by rw [hs']; exact hs2dev
  have hs'cur : s'.currentCommit = some cid := by rw [hs']; exact hcc
  have hs'heap : s'.commitHeap =
      s2.commitHeap.set cid
        { s2.commitHeap.getD cid defaultCommit with committer := some d } := by
    rw [hs']
  have hs'devHeap : s'.devHeap = s1.devHeap := by rw [hs']; exact hs2devHeap
  have hs'comm : s'.committers = s2.committers := by rw [hs']
  refine ⟨d, cid, hcur, hs'cur, hcidlt, ?_, hfun, hfresh0, ?_, ?_, ?_, ?_⟩
  · rw [hs'dev]; exact hdev1
  · rw [hs'heap, getD_set_self _ _ _ _ hcidlt2, hs2heap, hch]
  · intro i hi
    rw [hs'heap, getD_set_ne _ _ _ _ _ fun hh => hi hh.symm, hs2heap, hch]
  · intro j
    rw [hs'devHeap]
    by_cases hj : j = d
    · subst hj; rw [hdcm]
    · rw [hstab j hj]
  · intro hsk
    have hdevstr : ∀ i, devStr (s'.devHeap.getD i defaultDev) =
        devStr (s1.devHeap.getD i defaultDev) := by
      intro i; rw [hs'devHeap]
    have hmemd : (devKeyOf c, d) ∈ s'.developers := by
      rw [hs'dev]; exact alookup_mem _ _ _ hdev1
    have hkeyd := hsk _ hmemd
    dsimp only at hkeyd
    rw [hdevstr d] at hkeyd
    have hkeyc : key = devKeyOf c := by rw [hkey, hkeyd]
    have hkey' : devStr (s'.devHeap.getD d defaultDev) = key := by
      rw [hdevstr d, ← hkey]
    rw [hkey', hs'comm, hs2comm]
    by_cases hif : (alookup s1.committers key).isSome
    · rw [if_pos hif]
      obtain ⟨a0, ha0⟩ := Option.isSome_iff_exists.mp hif
      have hmem := alookup_mem _ _ _ ha0
      rw [hco] at hmem
      obtain ⟨hds, hlt, k0, hk0⟩ := hwd.2.2.2 (key, a0) hmem
      dsimp only at hds
      have hmem' : (k0, a0) ∈ s'.developers := by
        rw [hs'dev, hext]; exact List.mem_append_left _ hk0
      have h1 := hsk _ hmem'
      dsimp only at h1
      rw [hdevstr a0] at h1
      by_cases ha0d : a0 = d
      · rw [← ha0d]; exact ha0
      · rw [hstab a0 ha0d, hds] at h1
        have hnd' : (s'.developers.map Prod.fst).Nodup := by rw [hs'dev]; exact hw1.2.1
        have hlk0 : alookup s'.developers k0 = some a0 :=
          alookup_of_mem_nodup _ _ _ hmem' hnd'
        rw [← h1, hkeyc, hs'dev, hdev1] at hlk0
        have : d = a0 := Option.some.inj hlk0
        rw [ha0, ← this]
    · rw [if_neg hif]
      exact alookup_append_single_of_none _ _ _ (Option.not_isSome_iff_eq_none.mp hif)

theorem findDev_eqs (s : ParseState) (t : String) (s1 : ParseState) (d : Nat) (ts : Timestamp)
    (h : findDeveloperAndTimestamp s t = .ok (s1, d, ts)) :
    s1.commitHeap = s.commitHeap ∧ s1.currentCommit = s.currentCommit ∧
    s1.commits = s.commits ∧ s1.authors = s.authors ∧ s1.committers = s.committers := by
  rcases findDev_cases s t s1 d ts h with ⟨_, rfl⟩ | ⟨_, _, email, _, rfl⟩ <;>
    exact ⟨rfl, rfl, rfl, rfl, rfl⟩

theorem hashKey_getD_set_all (heap : List Commit) (cid : Nat) (f : Commit → Commit)
    (hfh : ∀ cc, (f cc).hashKey = cc.hashKey) (i : Nat) :
    ((heap.set cid (f (heap.getD cid defaultCommit))).getD i defaultCommit).hashKey =
      (heap.getD i defaultCommit).hashKey := by
  by_cases hi : i = cid
  · subst hi; exact hashKey_getD_set_upd heap i f hfh
  · rw [getD_set_ne _ _ _ _ _ fun hh => hi hh.symm]

theorem wfsc_set_keep (heap : List Commit) (cur : Option Nat) (reg : List (String × Nat))
    (cid : Nat) (f : Commit → Commit) (hw : WFSc heap cur reg)
    (hfh : ∀ cc, (f cc).hashKey = cc.hashKey)
    (hfp : ∀ cc, (f cc).parents = cc.parents) :
    WFSc (heap.set cid (f (heap.getD cid defaultCommit))) cur reg := by
  obtain ⟨w1, w2, w3⟩ := hw
  have hlen : (heap.set cid (f (heap.getD cid defaultCommit))).length = heap.length := by simp
  have hmemparents : ∀ cc ∈ heap.set cid (f (heap.getD cid defaultCommit)), ∀ p ∈ cc.parents,
      (∃ z, p.2 = PValue.str z) ∨
      ∃ pc, p.2 = PValue.commit pc ∧ pc < heap.length ∧
        (heap.getD pc defaultCommit).hashKey = p.1 := by
    intro cc hcc p hp
    rcases mem_set_sub _ _ _ _ hcc with rfl | hcc'
    · rw [hfp] at hp
      by_cases hr : cid < heap.length
      · exact w3 _ (getD_lt_length_mem _ _ _ hr) p hp
      · rw [getD_out _ _ _ (le_of_not_lt hr)] at hp
        simp [defaultCommit] at hp
    · exact w3 _ hcc' p hp
  refine ⟨fun c0 hc0 => by rw [hlen]; exact w1 c0 hc0, fun k c0 hk0 => ?_, ?_⟩
  · obtain ⟨hl, hh⟩ := w2 k c0 hk0
    exact ⟨by rw [hlen]; exact hl, by rw [hashKey_getD_set_all heap cid f hfh c0]; exact hh⟩
  · intro cc hcc p hp
    rcases hmemparents cc hcc p hp with hstr | ⟨pc, h1, h2, h3⟩
    · exact Or.inl hstr
    · exact Or.inr ⟨pc, h1, by rw [hlen]; exact h2,
        by rw [hashKey_getD_set_all heap cid f hfh pc]; exact h3⟩

theorem wfsc_parent_set (heap : List Commit) (cur : Option Nat) (reg : List (String × Nat))
    (cid : Nat) (c : String) (v : PValue) (hw : WFSc heap cur reg)
    (hv : v = PValue.str c ∨ ∃ pc, alookup reg c = some pc ∧ v = PValue.commit pc) :
    WFSc (heap.set cid ((fun cc => { cc with parents := aset cc.parents c v })
      (heap.getD cid defaultCommit))) cur reg := by
  obtain ⟨w1, w2, w3⟩ := hw
  have hhk := hashKey_getD_set_all heap cid
    (fun cc => { cc with parents := aset cc.parents c v }) (fun _ => rfl)
  have hlen : (heap.set cid ((fun cc => { cc with parents := aset cc.parents c v })
      (heap.getD cid defaultCommit))).length = heap.length := by simp
  refine ⟨fun c0 hc0 => by rw [hlen]; exact w1 c0 hc0, fun k c0 hk0 => ?_, ?_⟩
  · obtain ⟨hl, hh⟩ := w2 k c0 hk0
    exact ⟨by rw [hlen]; exact hl, by rw [hhk c0]; exact hh⟩
  · intro cc hcc p hp
    have hgood : (∃ z, p.2 = PValue.str z) ∨
        ∃ pc, p.2 = PValue.commit pc ∧ pc < heap.length ∧
          (heap.getD pc defaultCommit).hashKey = p.1 := by
      rcases mem_set_sub _ _ _ _ hcc with rfl | hcc'
      · rcases mem_aset_sub _ _ _ _ hp with rfl | hp'
        · rcases hv with rfl | ⟨pc, hreg, rfl⟩
          · exact Or.inl ⟨c, rfl⟩
          · obtain ⟨hl, hh⟩ := w2 c pc hreg
            exact Or.inr ⟨pc, rfl, hl, hh⟩
        · by_cases hr : cid < heap.length
          · exact w3 _ (getD_lt_length_mem _ _ _ hr) p hp'
          · rw [getD_out _ _ _ (le_of_not_lt hr)] at hp'
            simp [defaultCommit] at hp'
      · exact w3 _ hcc' p hp
    rcases hgood with h | ⟨pc, h1, h2, h3⟩
    · exact Or.inl h
    · exact Or.inr ⟨pc, h1, by rw [hlen]; exact h2, by rw [hhk pc]; exact h3⟩

theorem wfsc_append (heap : List Commit) (cur : Option Nat) (reg : List (String × Nat))
    (content : String) (hw : WFSc heap cur reg) :
    WFSc (heap ++ [⟨content, none, none, [], none⟩]) (some heap.length) reg := by
  obtain ⟨_, w2, w3⟩ := hw
  refine ⟨fun cid h => by rw [← Option.some.inj h]; simp, fun k c0 hk0 => ?_, ?_⟩
  · obtain ⟨hl, hh⟩ := w2 k c0 hk0
    refine ⟨by simp only [List.length_append, List.length_cons, List.length_nil]; omega, ?_⟩
    rw [getD_append_left _ _ _ _ hl]
    exact hh
  · intro cc hcc p hp
    rcases List.mem_append.mp hcc with hcc' | hcc'
    · rcases w3 cc hcc' p hp with h | ⟨pc, h1, h2, h3⟩
      · exact Or.inl h
      · refine Or.inr ⟨pc, h1,
          by simp only [List.length_append, List.length_cons, List.length_nil]; omega, ?_⟩
        rw [getD_append_left _ _ _ _ h2]
        exact h3
    · have : cc = ⟨content, none, none, [], none⟩ := by simpa using hcc'
      rw [this] at hp
      simp at hp

theorem wfs_init : WFS initState := by
  refine ⟨fun cid h => ?_, fun k c h => ?_, fun c hc => ?_⟩
  · simp [initState] at h
  · simp [initState, alookup] at h
  · simp [initState] at hc

theorem dwfs_init : DWFS initState := by
  refine ⟨fun p hp => ?_, ?_, fun p hp => ?_, fun p hp => ?_⟩ <;>
    simp [initState] at *

theorem stepLine_wfs (s : ParseState) (l : String) (s' : ParseState)
    (h : stepLine s l = .ok s') (hw : WFS s) : WFS s' := by
  rcases stepLine_cases s l s' h with ⟨rfl, -⟩ | ⟨c, -, rfl⟩ | ⟨c, -, hsh⟩ | ⟨c, -, hsh⟩ |
    ⟨c, -, hsh⟩ | ⟨c, -, hsh⟩
  · exact hw
  · unfold commitStep commitClose
    rcases hcur : s.currentCommit with _ | cid
    · exact wfsc_append s.commitHeap s.currentCommit s.commits c hw
    · have hcid : cid < s.commitHeap.length := hw.1 cid hcur
      refine wfsc_append s.commitHeap s.currentCommit _ c ⟨hw.1, fun k c0 hk0 => ?_, hw.2.2⟩
      rw [alookup_aset] at hk0
      by_cases hkk : k = (s.commitHeap.getD cid defaultCommit).hashKey
      · rw [if_pos hkk] at hk0
        rw [← Option.some.inj hk0]
        exact ⟨hcid, hkk.symm⟩
      · rw [if_neg hkk] at hk0
        exact hw.2.1 k c0 hk0
  · obtain ⟨ts, s1, d, key, s2, cid, aid, hfd, hkey, hs2, hcc, hak, rfl⟩ := hsh
    obtain ⟨hch, hcur1, hcm, hau, hco⟩ := findDev_eqs s c s1 d ts hfd
    have hs2heap : s2.commitHeap = s1.commitHeap := by rw [hs2]; split <;> rfl
    have hs2cur : s2.currentCommit = s1.currentCommit := by rw [hs2]; split <;> rfl
    have hs2cm : s2.commits = s1.commits := by rw [hs2]; split <;> rfl
    have hw2 : WFSc s2.commitHeap s2.currentCommit s2.commits := by
      rw [hs2heap, hs2cur, hs2cm, hch, hcur1, hcm]
      exact hw
    exact wfsc_set_keep s2.commitHeap s2.currentCommit s2.commits cid
      (fun cc => { cc with author := some d }) hw2 (fun _ => rfl) (fun _ => rfl)
  · obtain ⟨ts, s1, d, key, s2, cid, hfd, hkey, hs2, hcc, rfl⟩ := hsh
    obtain ⟨hch, hcur1, hcm, hau, hco⟩ := findDev_eqs s c s1 d ts hfd
    have hs2heap : s2.commitHeap = s1.commitHeap := by rw [hs2]; split <;> rfl
    have hs2cur : s2.currentCommit = s1.currentCommit := by rw [hs2]; split <;> rfl
    have hs2cm : s2.commits = s1.commits := by rw [hs2]; split <;> rfl
    have hw2 : WFSc s2.commitHeap s2.currentCommit s2.commits := by
      rw [hs2heap, hs2cur, hs2cm, hch, hcur1, hcm]
      exact hw
    exact wfsc_set_keep s2.commitHeap s2.currentCommit s2.commits cid
      (fun cc => { cc with committer := some d }) hw2 (fun _ => rfl) (fun _ => rfl)
  · obtain ⟨cid, v, hcc, hv, rfl⟩ := hsh
    refine wfsc_parent_set s.commitHeap s.currentCommit s.commits cid c v hw ?_
    rcases hlk : alookup s.commits c with _ | pcid
    · rw [hlk] at hv
      exact Or.inl hv
    · rw [hlk] at hv
      exact Or.inr ⟨pcid, rfl, hv⟩
  · obtain ⟨cid, hcc, rfl⟩ := hsh
    exact wfsc_set_keep s.commitHeap s.currentCommit s.commits cid
      (fun cc => { cc with tree := some c }) hw (fun _ => rfl) (fun _ => rfl)

theorem parseLines_wfs (ls : List String) (s s' : ParseState)
    (h : parseLines s ls = .ok s') (hw : WFS s) : WFS s' :=
  parseLines_rel (fun a b => WFS a → WFS b) (fun _ hh => hh)
    (fun _ _ _ f g hh => g (f hh)) (fun u l u' hs hh => stepLine_wfs u l u' hs hh)
    ls s s' h hw

theorem dwfs_author_entry (s1 : ParseState) (hw1 : DWFS s1) (key : String) (d : Nat)
    (hk : devStr (s1.devHeap.getD d defaultDev) = key) (hd : d < s1.devHeap.length)
    (hmem : ∃ k0, (k0, d) ∈ s1.developers) :
    DWFS { s1 with authors := s1.authors ++ [(key, d)] } := by
  obtain ⟨g1, g2, g3, g4⟩ := hw1
  refine ⟨g1, g2, fun p hp => ?_, g4⟩
  rcases List.mem_append.mp hp with hp' | hp'
  · exact g3 p hp'
  · have : p = (key, d) := by simpa using hp'
    rw [this]
    exact ⟨hk, hd, hmem⟩

theorem dwfs_committer_entry (s1 : ParseState) (hw1 : DWFS s1) (key : String) (d : Nat)
    (hk : devStr (s1.devHeap.getD d defaultDev) = key) (hd : d < s1.devHeap.length)
    (hmem : ∃ k0, (k0, d) ∈ s1.developers) :
    DWFS { s1 with committers := s1.committers ++ [(key, d)] } := by
  obtain ⟨g1, g2, g3, g4⟩ := hw1
  refine ⟨g1, g2, g3, fun p hp => ?_⟩
  rcases List.mem_append.mp hp with hp' | hp'
  · exact g4 p hp'
  · have : p = (key, d) := by simpa using hp'
    rw [this]
    exact ⟨hk, hd, hmem⟩

theorem dwfs_devheap_commits_set (s2 : ParseState) (hw2 : DWFS s2) (aid : Nat)
    (f : Developer → Developer)
    (hn : ∀ dd, (f dd).name = dd.name) (he : ∀ dd, (f dd).email = dd.email) :
    DWFS { s2 with devHeap := s2.devHeap.set aid (f (s2.devHeap.getD aid defaultDev)) } := by
  obtain ⟨g1, g2, g3, g4⟩ := hw2
  have hlen : (s2.devHeap.set aid (f (s2.devHeap.getD aid defaultDev))).length =
      s2.devHeap.length := by simp
  refine ⟨fun p hp => by rw [hlen]; exact g1 p hp, g2, fun p hp => ?_, fun p hp => ?_⟩
  · obtain ⟨h1, h2, h3⟩ := g3 p hp
    exact ⟨by rw [devStr_getD_set_upd s2.devHeap aid f hn he p.2]; exact h1,
      by rw [hlen]; exact h2, h3⟩
  · obtain ⟨h1, h2, h3⟩ := g4 p hp
    exact ⟨by rw [devStr_getD_set_upd s2.devHeap aid f hn he p.2]; exact h1,
      by rw [hlen]; exact h2, h3⟩

theorem stepLine_dwfs (s : ParseState) (l : String) (s' : ParseState)
    (h : stepLine s l = .ok s') (hw : DWFS s) : DWFS s' := by
  rcases stepLine_cases s l s' h with ⟨rfl, -⟩ | ⟨c, -, rfl⟩ | ⟨c, -, hsh⟩ | ⟨c, -, hsh⟩ |
    ⟨c, -, hsh⟩ | ⟨c, -, hsh⟩
  · exact hw
  · unfold commitStep commitClose
    rcases hcur : s.currentCommit with _ | cid <;> exact hw
  · obtain ⟨ts, s1, d, key, s2, cid, aid, hfd, hkey, hs2, hcc, hak, rfl⟩ := hsh
    obtain ⟨hw1, hdlt, hdev1, hch, hcur1, hcm, hau, hco, hstab, hdcm, hfun, hfresh0, ext, hext⟩ :=
      findDev_facts s c s1 d ts hfd hw
    have hw2 : DWFS s2 := by
      rw [hs2]
      by_cases hif : (alookup s1.authors key).isSome
      · rw [if_pos hif]; exact hw1
      · rw [if_neg hif]
        exact dwfs_author_entry s1 hw1 key d hkey.symm hdlt
          ⟨devKeyOf c, alookup_mem _ _ _ hdev1⟩
    exact dwfs_devheap_commits_set s2 hw2 aid
      (fun dd =>
        { dd with
          commits := aset dd.commits
            (((s2.commitHeap.set cid { s2.commitHeap.getD cid defaultCommit with
                author := some d }).getD cid defaultCommit).hashKey) cid })
      (fun _ => rfl) (fun _ => rfl)
  · obtain ⟨ts, s1, d, key, s2, cid, hfd, hkey, hs2, hcc, rfl⟩ := hsh
    obtain ⟨hw1, hdlt, hdev1, hch, hcur1, hcm, hau, hco, hstab, hdcm, hfun, hfresh0, ext, hext⟩ :=
      findDev_facts s c s1 d ts hfd hw
    have hw2 : DWFS s2 := by
      rw [hs2]
      by_cases hif : (alookup s1.committers key).isSome
      · rw [if_pos hif]; exact hw1
      · rw [if_neg hif]
        exact dwfs_committer_entry s1 hw1 key d hkey.symm hdlt
          ⟨devKeyOf c, alookup_mem _ _ _ hdev1⟩
    exact hw2
  · obtain ⟨cid, v, hcc, hv, rfl⟩ := hsh
    exact hw
  · obtain ⟨cid, hcc, rfl⟩ := hsh
    exact hw

theorem parseLines_dwfs (ls : List String) (s s' : ParseState)
    (h : parseLines s ls = .ok s') (hw : DWFS s) : DWFS s' :=
  parseLines_rel (fun a b => DWFS a → DWFS b) (fun _ hh => hh)
    (fun _ _ _ f g hh => g (f hh)) (fun u l u' hs hh => stepLine_dwfs u l u' hs hh)
    ls s s' h hw

theorem findDev_devappend (s : ParseState) (t : String) (s1 : ParseState) (d : Nat)
    (ts : Timestamp) (h : findDeveloperAndTimestamp s t = .ok (s1, d, ts)) :
    ∃ ext, s1.developers = s.developers ++ ext := by
  rcases findDev_cases s t s1 d ts h with ⟨_, rfl⟩ | ⟨_, _, email, _, rfl⟩
  · exact ⟨[], by simp⟩
  · exact ⟨[(devKeyOf t, d)], rfl⟩

theorem stepLine_devappend (s : ParseState) (l : String) (s' : ParseState)
    (h : stepLine s l = .ok s') : ∃ ext, s'.developers = s.developers ++ ext := by
  rcases stepLine_cases s l s' h with ⟨rfl, -⟩ | ⟨c, -, rfl⟩ | ⟨c, -, hsh⟩ | ⟨c, -, hsh⟩ |
    ⟨c, -, hsh⟩ | ⟨c, -, hsh⟩
  · exact ⟨[], by simp⟩
  · unfold commitStep commitClose
    rcases hcur : s.currentCommit with _ | cid <;> exact ⟨[], by simp⟩
  · obtain ⟨ts, s1, d, key, s2, cid, aid, hfd, hkey, hs2, hcc, hak, rfl⟩ := hsh
    obtain ⟨ext, hext⟩ := findDev_devappend s c s1 d ts hfd
    have hs2dev : s2.developers = s1.developers := by rw [hs2]; split <;> rfl
    exact ⟨ext, by rw [← hext, ← hs2dev]⟩
  · obtain ⟨ts, s1, d, key, s2, cid, hfd, hkey, hs2, hcc, rfl⟩ := hsh
    obtain ⟨ext, hext⟩ := findDev_devappend s c s1 d ts hfd
    have hs2dev : s2.developers = s1.developers := by rw [hs2]; split <;> rfl
    exact ⟨ext, by rw [← hext, ← hs2dev]⟩
  · obtain ⟨cid, v, hcc, hv, rfl⟩ := hsh
    exact ⟨[], by simp⟩
  · obtain ⟨cid, hcc, rfl⟩ := hsh
    exact ⟨[], by simp⟩

theorem parseLines_devappend (ls : List String) (s s' : ParseState)
    (h : parseLines s ls = .ok s') : ∃ ext, s'.developers = s.developers ++ ext :=
  parseLines_rel (fun a b => ∃ ext, b.developers = a.developers ++ ext)
    (fun _ => ⟨[], by simp⟩)
    (fun a b cc ⟨e1, h1⟩ ⟨e2, h2⟩ => ⟨e1 ++ e2, by rw [h2, h1, List.append_assoc]⟩)
    (fun u l u' hs => stepLine_devappend u l u' hs) ls s s' h

theorem selfKeyed_back (s s' : ParseState) (hm : Mono s s')
    (hext : ∃ ext, s'.developers = s.developers ++ ext) (hwd : DWFS s)
    (hsk : SelfKeyed s') : SelfKeyed s := by
  intro p hp
  obtain ⟨ext, he⟩ := hext
  have hp' : p ∈ s'.developers := by rw [he]; exact List.mem_append_left _ hp
  have h1 := hsk p hp'
  have hlt : p.2 < s.devHeap.length := hwd.1 p hp
  obtain ⟨hn, hemail⟩ := hm.2.2.2.2.2.1 p.2 hlt
  rw [← h1]
  unfold devStr
  rw [hn, hemail]

theorem stepLine_author_shape (s s' : ParseState) (l c : String)
    (h : stepLine s l = .ok s') (hcl : classifyLine l = some ("author", c)) :
    AuthorShape s s' c := by
  rcases stepLine_cases s l s' h with ⟨-, hno⟩ | ⟨c0, hcl0, -⟩ | ⟨c0, hcl0, hsh⟩ |
    ⟨c0, hcl0, -⟩ | ⟨c0, hcl0, -⟩ | ⟨c0, hcl0, -⟩
  · rcases hno with hn | ⟨kw, cc, hc, h1, h2, h3, h4, h5⟩
    · rw [hcl] at hn; exact absurd hn (by simp)
    · rw [hcl] at hc
      simp only [Option.some.injEq, Prod.mk.injEq] at hc
      exact absurd hc.1.symm h2
  · rw [hcl] at hcl0; simp at hcl0
  · rw [hcl] at hcl0
    simp only [Option.some.injEq, Prod.mk.injEq, true_and] at hcl0
    rw [hcl0]
    exact hsh
  · rw [hcl] at hcl0; simp at hcl0
  · rw [hcl] at hcl0; simp at hcl0
  · rw [hcl] at hcl0; simp at hcl0

theorem stepLine_committer_shape (s s' : ParseState) (l c : String)
    (h : stepLine s l = .ok s') (hcl : classifyLine l = some ("committer", c)) :
    CommitterShape s s' c := by
  rcases stepLine_cases s l s' h with ⟨-, hno⟩ | ⟨c0, hcl0, -⟩ | ⟨c0, hcl0, -⟩ |
    ⟨c0, hcl0, hsh⟩ | ⟨c0, hcl0, -⟩ | ⟨c0, hcl0, -⟩
  · rcases hno with hn | ⟨kw, cc, hc, h1, h2, h3, h4, h5⟩
    · rw [hcl] at hn; exact absurd hn (by simp)
    · rw [hcl] at hc
      simp only [Option.some.injEq, Prod.mk.injEq] at hc
      exact absurd hc.1.symm h3
  · rw [hcl] at hcl0; simp at hcl0
  · rw [hcl] at hcl0; simp at hcl0
  · rw [hcl] at hcl0
    simp only [Option.some.injEq, Prod.mk.injEq, true_and] at hcl0
    rw [hcl0]
    exact hsh
  · rw [hcl] at hcl0; simp at hcl0
  · rw [hcl] at hcl0; simp at hcl0

/-- Claim C5 (amended): within one parse, any two author header lines
whose content after removing the trailing epoch and timezone tokens is
byte-identical yield the same interned `Developer` object, set as the
author of both commits; and — provided every interned developer's
reconstructed composite string `"name <email>"` equals its interning key
(the amendment: otherwise the `_authors` registry can alias a different
developer, see the counterexample) — each of the two author events adds
exactly the one entry for the commit being built (keyed by its hash,
appended in encounter order) to that developer's `commits` map, leaving
every other developer's map unchanged. -/
theorem c5_interning_amended
    (pre mid : List String) (l1 l2 c1 c2 : String) (s1 s2 s3 s4 : ParseState)
    (hp1 : parseLines initState pre = .ok s1)
    (hc1 : classifyLine l1 = some ("author", c1))
    (hst1 : stepLine s1 l1 = .ok s2)
    (hp2 : parseLines s2 mid = .ok s3)
    (hc2 : classifyLine l2 = some ("author", c2))
    (hst2 : stepLine s3 l2 = .ok s4)
    (hkeys : devKeyOf c1 = devKeyOf c2)
    (hsk : SelfKeyed s4) :
    ∃ d cidA cidB,
      s1.currentCommit = some cidA ∧
      s3.currentCommit = some cidB ∧
      (s2.commitHeap.getD cidA defaultCommit).author = some d ∧
      (s4.commitHeap.getD cidB defaultCommit).author = some d ∧
      (s2.devHeap.getD d defaultDev).commits =
        aset ((s1.devHeap.getD d defaultDev).commits)
          ((s1.commitHeap.getD cidA defaultCommit).hashKey) cidA ∧
      (∀ j, j ≠ d → (s2.devHeap.getD j defaultDev).commits =
        (s1.devHeap.getD j defaultDev).commits) ∧
      (s4.devHeap.getD d defaultDev).commits =
        aset ((s3.devHeap.getD d defaultDev).commits)
          ((s3.commitHeap.getD cidB defaultCommit).hashKey) cidB ∧
      (∀ j, j ≠ d → (s4.devHeap.getD j defaultDev).commits =
        (s3.devHeap.getD j defaultDev).commits) := by
  have hwfs1 : WFS s1 := parseLines_wfs pre initState s1 hp1 wfs_init
  have hdwfs1 : DWFS s1 := parseLines_dwfs pre initState s1 hp1 dwfs_init
  have hwfs2 : WFS s2 := stepLine_wfs s1 l1 s2 hst1 hwfs1
  have hdwfs2 : DWFS s2 := stepLine_dwfs s1 l1 s2 hst1 hdwfs1
  have hwfs3 : WFS s3 := parseLines_wfs mid s2 s3 hp2 hwfs2
  have hdwfs3 : DWFS s3 := parseLines_dwfs mid s2 s3 hp2 hdwfs2
  have hshA := stepLine_author_shape s1 s2 l1 c1 hst1 hc1
  have hshB := stepLine_author_shape s3 s4 l2 c2 hst2 hc2
  have hsk3 : SelfKeyed s3 := selfKeyed_back s3 s4 (stepLine_mono s3 l2 s4 hst2)
    (stepLine_devappend s3 l2 s4 hst2) hdwfs3 hsk
  have hsk2 : SelfKeyed s2 := selfKeyed_back s2 s3 (parseLines_mono mid s2 s3 hp2)
    (parseLines_devappend mid s2 s3 hp2) hdwfs2 hsk3
  obtain ⟨dA, cidA, hcurA, -, -, hdevA, hfunA, -, hheapA, -, hmapA⟩ :=
    author_step_effect s1 s2 c1 hshA hwfs1 hdwfs1
  obtain ⟨dB, cidB, hcurB, -, -, hdevB, hfunB, -, hheapB, -, hmapB⟩ :=
    author_step_effect s3 s4 c2 hshB hwfs3 hdwfs3
  have hdevA3 : alookup s3.developers (devKeyOf c2) = some dA := by
    rw [← hkeys]
    exact (parseLines_mono mid s2 s3 hp2).2.2.1 _ _ hdevA
  have hid : dB = dA := hfunB dA hdevA3
  subst hid
  obtain ⟨hmA1, hmA2, -⟩ := hmapA hsk2
  obtain ⟨hmB1, hmB2, -⟩ := hmapB hsk
  exact ⟨dB, cidA, cidB, hcurA, hcurB, by rw [hheapA], by rw [hheapB],
    hmA1, hmA2, hmB1, hmB2⟩

/-- Claim C9 (amended): an author line and a committer line whose
content yields the identical interning key produce the very same interned
`Developer` object (both dispatch through the shared `_developers`
table); and — provided every interned developer's reconstructed
composite string equals its interning key (the amendment: otherwise the
two registries can hold different objects under the same composite key,
see the counterexample) — the `_authors` and `_committers` registries
then hold that same object under the same composite key. -/
theorem c9_shared_interning_amended
    (pre mid : List String) (l1 l2 c1 c2 : String) (s1 s2 s3 s4 : ParseState)
    (hp1 : parseLines initState pre = .ok s1)
    (hc1 : classifyLine l1 = some ("author", c1))
    (hst1 : stepLine s1 l1 = .ok s2)
    (hp2 : parseLines s2 mid = .ok s3)
    (hc2 : classifyLine l2 = some ("committer", c2))
    (hst2 : stepLine s3 l2 = .ok s4)
    (hkeys : devKeyOf c1 = devKeyOf c2)
    (hsk : SelfKeyed s4) :
    ∃ d cidA cidB,
      s1.currentCommit = some cidA ∧
      s3.currentCommit = some cidB ∧
      (s2.commitHeap.getD cidA defaultCommit).author = some d ∧
      (s4.commitHeap.getD cidB defaultCommit).committer = some d ∧
      alookup s4.authors (devStr (s4.devHeap.getD d defaultDev)) = some d ∧
      alookup s4.committers (devStr (s4.devHeap.getD d defaultDev)) = some d := by
  have hwfs1 : WFS s1 := parseLines_wfs pre initState s1 hp1 wfs_init
  have hdwfs1 : DWFS s1 := parseLines_dwfs pre initState s1 hp1 dwfs_init
  have hwfs2 : WFS s2 := stepLine_wfs s1 l1 s2 hst1 hwfs1
  have hdwfs2 : DWFS s2 := stepLine_dwfs s1 l1 s2 hst1 hdwfs1
  have hwfs3 : WFS s3 := parseLines_wfs mid s2 s3 hp2 hwfs2
  have hdwfs3 : DWFS s3 := parseLines_dwfs mid s2 s3 hp2 hdwfs2
  have hshA := stepLine_author_shape s1 s2 l1 c1 hst1 hc1
  have hshB := stepLine_committer_shape s3 s4 l2 c2 hst2 hc2
  have hsk3 : SelfKeyed s3 := selfKeyed_back s3 s4 (stepLine_mono s3 l2 s4 hst2)
    (stepLine_devappend s3 l2 s4 hst2) hdwfs3 hsk
  have hsk2 : SelfKeyed s2 := selfKeyed_back s2 s3 (parseLines_mono mid s2 s3 hp2)
    (parseLines_devappend mid s2 s3 hp2) hdwfs2 hsk3
  obtain ⟨dA, cidA, hcurA, -, -, hdevA, hfunA, -, hheapA, -, hmapA⟩ :=
    author_step_effect s1 s2 c1 hshA hwfs1 hdwfs1
  obtain ⟨dB, cidB, hcurB, -, -, hdevB, hfunB, -, hheapB, -, -, hcommB⟩ :=
    committer_step_effect s3 s4 c2 hshB hwfs3 hdwfs3
  have hdevA3 : alookup s3.developers (devKeyOf c2) = some dA := by
    rw [← hkeys]
    exact (parseLines_mono mid s2 s3 hp2).2.2.1 _ _ hdevA
  have hid : dB = dA := hfunB dA hdevA3
  subst hid
  obtain ⟨-, -, hauth2⟩ := hmapA hsk2
  have hm24 : Mono s2 s4 := mono_trans _ _ _ (parseLines_mono mid s2 s3 hp2)
    (stepLine_mono s3 l2 s4 hst2)
  have hdAlt : dB < s2.devHeap.length := hdwfs2.1 _ (alookup_mem _ _ _ hdevA)
  obtain ⟨hn, he⟩ := hm24.2.2.2.2.2.1 dB hdAlt
  have hKeq : devStr (s4.devHeap.getD dB defaultDev) =
      devStr (s2.devHeap.getD dB defaultDev) := by
    unfold devStr
    rw [hn, he]
  refine ⟨dB, cidA, cidB, hcurA, hcurB, by rw [hheapA], by rw [hheapB], ?_, ?_⟩
  · rw [hKeq]
    exact hm24.2.2.2.1 _ _ hauth2
  · exact hcommB hsk

/-- Claim C8 (amended): from one and the same state, an `author` header
sets the open commit's author to the interned developer and — provided
every interned developer's composite string equals its interning key
(the amendment: otherwise the commit is recorded under a different
developer aliased in the `_authors` registry, see the counterexample) —
records the open commit, keyed by its hash, in that same developer's
`commits` map; whereas a `committer` header with identical content
performs the same content parse, sets the commit's committer to the same
interned developer, and leaves every developer's `commits` map
untouched. -/
theorem c8_author_committer_asymmetry_amended
    (pre : List String) (lA lK c : String) (s1 sA sK : ParseState)
    (hp1 : parseLines initState pre = .ok s1)
    (hcA : classifyLine lA = some ("author", c))
    (hstA : stepLine s1 lA = .ok sA)
    (hcK : classifyLine lK = some ("committer", c))
    (hstK : stepLine s1 lK = .ok sK)
    (hsk : SelfKeyed sA) :
    ∃ d cid,
      s1.currentCommit = some cid ∧
      (sA.commitHeap.getD cid defaultCommit).author = some d ∧
      (sA.devHeap.getD d defaultDev).commits =
        aset ((s1.devHeap.getD d defaultDev).commits)
          ((s1.commitHeap.getD cid defaultCommit).hashKey) cid ∧
      (∀ j, j ≠ d → (sA.devHeap.getD j defaultDev).commits =
        (s1.devHeap.getD j defaultDev).commits) ∧
      (sK.commitHeap.getD cid defaultCommit).committer = some d ∧
      (∀ j, (sK.devHeap.getD j defaultDev).commits =
        (s1.devHeap.getD j defaultDev).commits) := by
  have hwfs1 : WFS s1 := parseLines_wfs pre initState s1 hp1 wfs_init
  have hdwfs1 : DWFS s1 := parseLines_dwfs pre initState s1 hp1 dwfs_init
  have hshA := stepLine_author_shape s1 sA lA c hstA hcA
  have hshK := stepLine_committer_shape s1 sK lK c hstK hcK
  obtain ⟨dA, cidA, hcurA, -, -, hdevA, hfunA, hfreshA, hheapA, -, hmapA⟩ :=
    author_step_effect s1 sA c hshA hwfs1 hdwfs1
  obtain ⟨dK, cidK, hcurK, -, -, hdevK, hfunK, hfreshK, hheapK, -, hcommsK, -⟩ :=
    committer_step_effect s1 sK c hshK hwfs1 hdwfs1
  have hcid : cidK = cidA := by
    rw [hcurA] at hcurK
    exact Option.some.inj hcurK.symm
  subst hcid
  have hd : dK = dA := by
    rcases hlk : alookup s1.developers (devKeyOf c) with _ | d0
    · rw [hfreshA hlk, hfreshK hlk]
    · rw [hfunA d0 hlk, hfunK d0 hlk]
  subst hd
  obtain ⟨hmA1, hmA2, -⟩ := hmapA hsk
  exact ⟨dK, cidK, hcurA, by rw [hheapA], hmA1, hmA2, by rw [hheapK], hcommsK⟩

/-- Witness for C5 at a concrete two-author-line run. -/
theorem c5_witness :
    ∃ d cidA cidB,
      wS1.currentCommit = some cidA ∧
      wS3.currentCommit = some cidB ∧
      (wS2.commitHeap.getD cidA defaultCommit).author = some d ∧
      (wS4.commitHeap.getD cidB defaultCommit).author = some d ∧
      (wS2.devHeap.getD d defaultDev).commits =
        aset ((wS1.devHeap.getD d defaultDev).commits)
          ((wS1.commitHeap.getD cidA defaultCommit).hashKey) cidA ∧
      (∀ j, j ≠ d → (wS2.devHeap.getD j defaultDev).commits =
        (wS1.devHeap.getD j defaultDev).commits) ∧
      (wS4.devHeap.getD d defaultDev).commits =
        aset ((wS3.devHeap.getD d defaultDev).commits)
          ((wS3.commitHeap.getD cidB defaultCommit).hashKey) cidB ∧
      (∀ j, j ≠ d → (wS4.devHeap.getD j defaultDev).commits =
        (wS3.devHeap.getD j defaultDev).commits) :=
  c5_interning_amended ["commit h1"] ["commit h2"] "author A <a@x> 100 +0000"
    "author A <a@x> 100 +0000" "A <a@x> 100 +0000" "A <a@x> 100 +0000"
    wS1 wS2 wS3 wS4 (by decide) (by decide) (by decide) (by decide) (by decide)
    (by decide) (by decide) (by decide)

/-- Witness for C9 at a concrete author-then-committer run. -/
theorem c9_witness :
    ∃ d cidA cidB,
      wS1.currentCommit = some cidA ∧
      wS2.currentCommit = some cidB ∧
      (wS2.commitHeap.getD cidA defaultCommit).author = some d ∧
      (wK4.commitHeap.getD cidB defaultCommit).committer = some d ∧
      alookup wK4.authors (devStr (wK4.devHeap.getD d defaultDev)) = some d ∧
      alookup wK4.committers (devStr (wK4.devHeap.getD d defaultDev)) = some d :=
  c9_shared_interning_amended ["commit h1"] [] "author A <a@x> 100 +0000"
    "committer A <a@x> 100 +0000" "A <a@x> 100 +0000" "A <a@x> 100 +0000"
    wS1 wS2 wS2 wK4 (by decide) (by decide) (by decide) (by decide) (by decide)
    (by decide) (by decide) (by decide)

/-- Witness for C8 at a concrete state with one open commit. -/
theorem c8_witness :
    ∃ d cid,
      wS1.currentCommit = some cid ∧
      (wS2.commitHeap.getD cid defaultCommit).author = some d ∧
      (wS2.devHeap.getD d defaultDev).commits =
        aset ((wS1.devHeap.getD d defaultDev).commits)
          ((wS1.commitHeap.getD cid defaultCommit).hashKey) cid ∧
      (∀ j, j ≠ d → (wS2.devHeap.getD j defaultDev).commits =
        (wS1.devHeap.getD j defaultDev).commits) ∧
      (wK2.commitHeap.getD cid defaultCommit).committer = some d ∧
      (∀ j, (wK2.devHeap.getD j defaultDev).commits =
        (wS1.devHeap.getD j defaultDev).commits) :=
  c8_author_committer_asymmetry_amended ["commit h1"] "author A <a@x> 100 +0000"
    "committer A <a@x> 100 +0000" "A <a@x> 100 +0000" wS1 wS2 wK2
    (by decide) (by decide) (by decide) (by decide) (by decide) (by decide)

/-- Claim C6: the resolution pass is idempotent — if `_resolveCommits`
turns state `s` into `s'`, running it again on `s'` returns `s'`
unchanged, and every `parents` entry of `s` that is already a resolved
`Commit` reference survives the run untouched. -/
theorem c6_resolution_idempotent (s s' : ParseState)
    (h : resolveCommits s = .ok s') :
    resolveCommits s' = .ok s' ∧
    ∀ cid k c,
      alookup (s.commitHeap.getD cid defaultCommit).parents k = some (.commit c) →
      alookup (s'.commitHeap.getD cid defaultCommit).parents k = some (.commit c) := by
  unfold resolveCommits at h
  rcases hrl : resolveLoop s.commits s.commitHeap s.commits with e | heap2
  · rw [hrl] at h; simp at h
  · rw [hrl] at h
    simp only [Except.ok.injEq] at h
    constructor
    · rw [← h]
      unfold resolveCommits
      dsimp only
      have hall := resolveLoop_all_resolved s.commits s.commits s.commitHeap heap2 [] hrl
        (by simp)
      rw [resolveLoop_id s.commits heap2 s.commits (fun e he => hall e (by simpa using he))]
    · intro cid k c hl
      rw [← h]
      exact resolveLoop_lookup_commit s.commits s.commits s.commitHeap heap2 hrl cid k c hl

/-- Witness for C6 at a concrete state with one placeholder parent. -/
theorem c6_witness :
    resolveCommits resolveDemoPost = .ok resolveDemoPost ∧
    ∀ cid k c,
      alookup (resolveDemoPre.commitHeap.getD cid defaultCommit).parents k = some (.commit c) →
      alookup (resolveDemoPost.commitHeap.getD cid defaultCommit).parents k =
        some (.commit c) :=
  c6_resolution_idempotent resolveDemoPre resolveDemoPost (by decide)

/-- Claim C7: a non-blank line that does not start with a space and
contains no space at all is skipped (after a logged warning, which the
embedding omits as out-of-scope I/O): the parse is not aborted and no
open commit field and no registry is affected — deleting the line from
the input leaves the whole pipeline's result unchanged. -/
theorem c7_spaceless_line_skipped (l : String) (hne : l.toList ≠ [])
    (hsp : l.toList.head? ≠ some ' ') (hno : ' ' ∉ l.toList)
    (pre post : List String) :
    parseList (pre ++ l :: post) = parseList (pre ++ post) := by
  have hcl : classifyLine l = none := by
    rcases hcs : l.toList with _ | ⟨c, cs⟩
    · exact absurd hcs hne
    · have hc : ¬ c = ' ' := by
        intro hh
        exact hsp (by rw [hcs, hh]; rfl)
      have hd : l.data = c :: cs := hcs
      rw [hcs] at hno
      simp only [List.mem_cons, not_or] at hno
      obtain ⟨hno1, hno2⟩ := hno
      simp [classifyLine, hd, hc, hno1, hno2]
  have hlines : ∀ u, parseLines u (pre ++ l :: post) = parseLines u (pre ++ post) := by
    induction pre with
    | nil =>
      intro u
      simp [parseLines, stepLine_skip u l hcl]
    | cons p ps ih =>
      intro u
      simp only [List.cons_append, parseLines]
      cases hs : stepLine u p <;> simp [ih]
  unfold parseList
  rw [hlines initState]

/-- Witness for C7: the spaceless line `bogusnospace` is dropped. -/
theorem c7_witness :
    parseList ["commit a", "bogusnospace"] = parseList ["commit a"] :=
  c7_spaceless_line_skipped "bogusnospace" (by decide) (by decide) (by decide) ["commit a"] []

/-- Claim C10: if the first line of the input that classifies as a header
has keyword `tree`, `parent`, `author` or `committer` (every earlier line
being blank, a continuation, or spaceless), the parse fails: the handler
dereferences `self._currentCommit`, which is still `None` (for
author/committer lines the developer parse may fail first — either way
`parse` raises). -/
theorem c10_header_before_commit_fails (text : String) (pre : List String) (l : String)
    (rest : List String) (kw c : String)
    (hsplit : strSplitOn text '\n' = pre ++ l :: rest)
    (hpre : ∀ l' ∈ pre, classifyLine l' = none)
    (hcl : classifyLine l = some (kw, c))
    (hkw : kw = "tree" ∨ kw = "parent" ∨ kw = "author" ∨ kw = "committer") :
    ∃ e, parse text = .error e := by
  have hstep : ∃ e, stepLine initState l = .error e := by
    unfold stepLine
    rw [hcl]
    dsimp only
    rcases hkw with rfl | rfl | rfl | rfl
    · exact ⟨.noneCommit, by simp [handleKeyValue, initState]⟩
    · exact ⟨.noneCommit, by simp [handleKeyValue, initState]⟩
    · rcases hfd : findDeveloperAndTimestamp initState c with e | v
      · exact ⟨e, by simp [handleKeyValue, hfd]⟩
      · obtain ⟨s1, d, ts⟩ := v
        have hcur : s1.currentCommit = none := findDev_current initState c s1 d ts hfd
        refine ⟨.noneCommit, ?_⟩
        by_cases hif : (alookup s1.authors (devStr (s1.devHeap.getD d defaultDev))).isSome <;>
          simp [handleKeyValue, hfd, hif, hcur, -List.getD_eq_getElem?_getD]
    · rcases hfd : findDeveloperAndTimestamp initState c with e | v
      · exact ⟨e, by simp [handleKeyValue, hfd]⟩
      · obtain ⟨s1, d, ts⟩ := v
        have hcur : s1.currentCommit = none := findDev_current initState c s1 d ts hfd
        refine ⟨.noneCommit, ?_⟩
        by_cases hif : (alookup s1.committers (devStr (s1.devHeap.getD d defaultDev))).isSome <;>
          simp [handleKeyValue, hfd, hif, hcur, -List.getD_eq_getElem?_getD]
  obtain ⟨e, he⟩ := hstep
  refine ⟨e, ?_⟩
  unfold parse parseList
  rw [hsplit, parseLines_append, parseLines_skip pre hpre initState]
  simp only [parseLines, he]

/-- Witness for C10: a `tree` header as the very first line. -/
theorem c10_witness : ∃ e, parse "tree t1" = .error e :=
  c10_header_before_commit_fails "tree t1" [] "tree t1" [] "tree" "t1" (by decide)
    (by simp) (by decide) (Or.inl rfl)

theorem map_hashKey_set (heap : List Commit) (cid : Nat) (f : Commit → Commit)
    (hf : ∀ cc, (f cc).hashKey = cc.hashKey) :
    (heap.set cid (f (heap.getD cid defaultCommit))).map Commit.hashKey =
      heap.map Commit.hashKey := by
  by_cases hr : cid < heap.length
  · rw [List.map_set]
    have h1 : (f (heap.getD cid defaultCommit)).hashKey =
        (heap.map Commit.hashKey).getD cid defaultCommit.hashKey := by
      rw [hf, map_getD Commit.hashKey heap cid defaultCommit hr]
    rw [h1, set_getD_self]
  · rw [List.set_eq_of_length_le (le_of_not_lt hr)]

theorem stepLine_hashes (s : ParseState) (l : String) (s' : ParseState)
    (h : stepLine s l = .ok s') :
    s'.commitHeap.map Commit.hashKey = s.commitHeap.map Commit.hashKey ++ chLine l := by
  rcases stepLine_cases s l s' h with ⟨rfl, hno⟩ | ⟨c, hcl0, rfl⟩ | ⟨c, hcl0, hsh⟩ |
    ⟨c, hcl0, hsh⟩ | ⟨c, hcl0, hsh⟩ | ⟨c, hcl0, hsh⟩
  · have : chLine l = [] := by
      rcases hno with hn | ⟨kw, cc, hc, h1, h2, h3, h4, h5⟩
      · simp [chLine, hn]
      · simp [chLine, hc, h1]
    rw [this, List.append_nil]
  · have : chLine l = [c] := by simp [chLine, hcl0]
    rw [this]
    unfold commitStep commitClose
    rcases hcur : s.currentCommit with _ | cid <;> simp
  · obtain ⟨ts, s1, d, key, s2, cid, aid, hfd, hkey, hs2, hcc, hak, rfl⟩ := hsh
    have h0 : chLine l = [] := by simp [chLine, hcl0]
    rw [h0, List.append_nil]
    obtain ⟨hch, -, -, -, -⟩ := findDev_eqs s c s1 d ts hfd
    have hs2heap : s2.commitHeap = s1.commitHeap := by rw [hs2]; split <;> rfl
    have := map_hashKey_set s2.commitHeap cid (fun cc => { cc with author := some d })
      (fun _ => rfl)
    rw [this, hs2heap, hch]
  · obtain ⟨ts, s1, d, key, s2, cid, hfd, hkey, hs2, hcc, rfl⟩ := hsh
    have h0 : chLine l = [] := by simp [chLine, hcl0]
    rw [h0, List.append_nil]
    obtain ⟨hch, -, -, -, -⟩ := findDev_eqs s c s1 d ts hfd
    have hs2heap : s2.commitHeap = s1.commitHeap := by rw [hs2]; split <;> rfl
    have := map_hashKey_set s2.commitHeap cid (fun cc => { cc with committer := some d })
      (fun _ => rfl)
    rw [this, hs2heap, hch]
  · obtain ⟨cid, v, hcc, hv, rfl⟩ := hsh
    have h0 : chLine l = [] := by simp [chLine, hcl0]
    rw [h0, List.append_nil]
    exact map_hashKey_set s.commitHeap cid
      (fun cc => { cc with parents := aset cc.parents c v }) (fun _ => rfl)
  · obtain ⟨cid, hcc, rfl⟩ := hsh
    have h0 : chLine l = [] := by simp [chLine, hcl0]
    rw [h0, List.append_nil]
    exact map_hashKey_set s.commitHeap cid (fun cc => { cc with tree := some c })
      (fun _ => rfl)

theorem parseLines_hashes (ls : List String) (s s' : ParseState)
    (h : parseLines s ls = .ok s') :
    s'.commitHeap.map Commit.hashKey = s.commitHeap.map Commit.hashKey ++ commitHashes ls := by
  induction ls generalizing s with
  | nil =>
    simp only [parseLines, Except.ok.injEq] at h
    rw [← h]
    simp [commitHashes]
  | cons l rest ih =>
    unfold parseLines at h
    rcases hs : stepLine s l with e | s1
    · rw [hs] at h; simp at h
    · rw [hs] at h
      rw [ih s1 h, stepLine_hashes s l s1 hs]
      simp [commitHashes, List.append_assoc]

theorem parseLines_append_ok (a b : List String) (u w : ParseState)
    (h : parseLines u (a ++ b) = .ok w) :
    ∃ v, parseLines u a = .ok v ∧ parseLines v b = .ok w := by
  rw [parseLines_append] at h
  rcases hv : parseLines u a with e | v
  · rw [hv] at h; simp at h
  · rw [hv] at h
    exact ⟨v, rfl, h⟩

theorem parseLines_cons_ok (l : String) (b : List String) (u w : ParseState)
    (h : parseLines u (l :: b) = .ok w) :
    ∃ v, stepLine u l = .ok v ∧ parseLines v b = .ok w := by
  unfold parseLines at h
  rcases hs : stepLine u l with e | v
  · rw [hs] at h; simp at h
  · rw [hs] at h
    exact ⟨v, rfl, h⟩

theorem stepLine_commit_shape (s s' : ParseState) (l c : String)
    (h : stepLine s l = .ok s') (hcl : classifyLine l = some ("commit", c)) :
    s' = commitStep s c := by
  rcases stepLine_cases s l s' h with ⟨-, hno⟩ | ⟨c0, hcl0, hsh⟩ | ⟨c0, hcl0, -⟩ |
    ⟨c0, hcl0, -⟩ | ⟨c0, hcl0, -⟩ | ⟨c0, hcl0, -⟩
  · rcases hno with hn | ⟨kw, cc, hc, h1, h2, h3, h4, h5⟩
    · rw [hcl] at hn; exact absurd hn (by simp)
    · rw [hcl] at hc
      simp only [Option.some.injEq, Prod.mk.injEq] at hc
      exact absurd hc.1.symm h1
  · rw [hcl] at hcl0
    simp only [Option.some.injEq, Prod.mk.injEq, true_and] at hcl0
    rw [hcl0]
    exact hsh
  · rw [hcl] at hcl0; simp at hcl0
  · rw [hcl] at hcl0; simp at hcl0
  · rw [hcl] at hcl0; simp at hcl0
  · rw [hcl] at hcl0; simp at hcl0

theorem stepLine_parent_shape (s s' : ParseState) (l c : String)
    (h : stepLine s l = .ok s') (hcl : classifyLine l = some ("parent", c)) :
    ParentShape s s' c := by
  rcases stepLine_cases s l s' h with ⟨-, hno⟩ | ⟨c0, hcl0, -⟩ | ⟨c0, hcl0, -⟩ |
    ⟨c0, hcl0, -⟩ | ⟨c0, hcl0, hsh⟩ | ⟨c0, hcl0, -⟩
  · rcases hno with hn | ⟨kw, cc, hc, h1, h2, h3, h4, h5⟩
    · rw [hcl] at hn; exact absurd hn (by simp)
    · rw [hcl] at hc
      simp only [Option.some.injEq, Prod.mk.injEq] at hc
      exact absurd hc.1.symm h4
  · rw [hcl] at hcl0; simp at hcl0
  · rw [hcl] at hcl0; simp at hcl0
  · rw [hcl] at hcl0; simp at hcl0
  · rw [hcl] at hcl0
    simp only [Option.some.injEq, Prod.mk.injEq, true_and] at hcl0
    rw [hcl0]
    exact hsh
  · rw [hcl] at hcl0; simp at hcl0

theorem stepLine_noncommit_current (s : ParseState) (l : String) (s' : ParseState)
    (h : stepLine s l = .ok s') (hnc : ∀ c0, classifyLine l ≠ some ("commit", c0)) :
    s'.currentCommit = s.currentCommit := by
  rcases stepLine_cases s l s' h with ⟨rfl, -⟩ | ⟨c, hcl0, -⟩ | ⟨c, hcl0, hsh⟩ |
    ⟨c, hcl0, hsh⟩ | ⟨c, hcl0, hsh⟩ | ⟨c, hcl0, hsh⟩
  · rfl
  · exact absurd hcl0 (hnc c)
  · obtain ⟨ts, s1, d, key, s2, cid, aid, hfd, hkey, hs2, hcc, hak, rfl⟩ := hsh
    obtain ⟨-, hcur1, -, -, -⟩ := findDev_eqs s c s1 d ts hfd
    have hs2cur : s2.currentCommit = s1.currentCommit := by rw [hs2]; split <;> rfl
    rw [← hcur1, ← hs2cur]
  · obtain ⟨ts, s1, d, key, s2, cid, hfd, hkey, hs2, hcc, rfl⟩ := hsh
    obtain ⟨-, hcur1, -, -, -⟩ := findDev_eqs s c s1 d ts hfd
    have hs2cur : s2.currentCommit = s1.currentCommit := by rw [hs2]; split <;> rfl
    rw [← hcur1, ← hs2cur]
  · obtain ⟨cid, v, hcc, hv, rfl⟩ := hsh
    rfl
  · obtain ⟨cid, hcc, rfl⟩ := hsh
    rfl

theorem parseLines_noncommit_current (ls : List String) (s s' : ParseState)
    (h : parseLines s ls = .ok s')
    (hnc : ∀ l ∈ ls, ∀ c0, classifyLine l ≠ some ("commit", c0)) :
    s'.currentCommit = s.currentCommit := by
  induction ls generalizing s with
  | nil =>
    simp only [parseLines, Except.ok.injEq] at h
    rw [← h]
  | cons l rest ih =>
    unfold parseLines at h
    rcases hs : stepLine s l with e | s1
    · rw [hs] at h; simp at h
    · rw [hs] at h
      rw [ih s1 h (fun l' hl' => hnc l' (List.mem_cons_of_mem _ hl'))]
      exact stepLine_noncommit_current s l s1 hs (hnc l (List.mem_cons_self _ _))

theorem hashes_eq_getD (heap heap' : List Commit)
    (h : heap'.map Commit.hashKey = heap.map Commit.hashKey) (i : Nat) :
    (heap'.getD i defaultCommit).hashKey = (heap.getD i defaultCommit).hashKey := by
  have hlen : heap'.length = heap.length := by
    have h2 := congrArg List.length h
    simpa using h2
  by_cases hi : i < heap.length
  · have h1 := map_getD Commit.hashKey heap' i defaultCommit (by rw [hlen]; exact hi)
    have h2 := map_getD Commit.hashKey heap i defaultCommit hi
    rw [← h1, ← h2, h]
  · rw [getD_out _ _ _ (by omega : heap'.length ≤ i),
      getD_out _ _ _ (le_of_not_lt hi)]

theorem alookup_aset_isSome {α : Type} (l : List (String × α)) (k k' : String) (v : α)
    (h : (alookup l k).isSome) : (alookup (aset l k' v) k).isSome := by
  rw [alookup_aset]
  by_cases hk : k = k'
  · simp [hk]
  · simp [hk, h]

theorem commitClose_heap (s : ParseState) : (commitClose s).commitHeap = s.commitHeap := by
  unfold commitClose; split <;> rfl

theorem flushLast_ok (s s' : ParseState) (h : flushLast s = .ok s') :
    ∃ cid, s.currentCommit = some cid ∧
      s' = { s with
              commits := aset s.commits ((s.commitHeap.getD cid defaultCommit).hashKey) cid,
              currentCommit := none } := by
  unfold flushLast at h
  rcases hc : s.currentCommit with _ | cid
  · rw [hc] at h; simp at h
  · rw [hc] at h
    simp only [Except.ok.injEq] at h
    exact ⟨cid, rfl, h.symm⟩

theorem resolveCommits_ok (s s' : ParseState) (h : resolveCommits s = .ok s') :
    ∃ heap2, resolveLoop s.commits s.commitHeap s.commits = .ok heap2 ∧
      s' = { s with commitHeap := heap2 } := by
  unfold resolveCommits at h
  rcases hr : resolveLoop s.commits s.commitHeap s.commits with e | heap2
  · rw [hr] at h; simp at h
  · rw [hr] at h
    simp only [Except.ok.injEq] at h
    exact ⟨heap2, rfl, h.symm⟩

theorem parseList_ok (ls : List String) (s : ParseState) (h : parseList ls = .ok s) :
    ∃ s5 s6, parseLines initState ls = .ok s5 ∧ flushLast s5 = .ok s6 ∧
      resolveCommits s6 = .ok s := by
  unfold parseList at h
  rcases h5 : parseLines initState ls with e | s5
  · rw [h5] at h; simp at h
  · rw [h5] at h
    have h' : (match flushLast s5 with
               | .error e => .error e
               | .ok s6 => resolveCommits s6) = Except.ok s := h
    rcases h6 : flushLast s5 with e | s6
    · rw [h6] at h'; simp at h'
    · rw [h6] at h'
      exact ⟨s5, s6, rfl, h6, h'⟩

theorem registered_init : Registered initState := by
  intro h2 hh
  simp [initState] at hh

theorem registered_of_eqs (s s' : ParseState)
    (hh : s'.commitHeap.map Commit.hashKey = s.commitHeap.map Commit.hashKey)
    (hcm : s'.commits = s.commits) (hcu : s'.currentCommit = s.currentCommit)
    (hr : Registered s) : Registered s' := by
  intro h2 hmem
  rw [hh] at hmem
  rcases hr h2 hmem with ⟨c, hc⟩ | ⟨cid, hcur, hkey⟩
  · exact Or.inl ⟨c, by rw [hcm]; exact hc⟩
  · exact Or.inr ⟨cid, by rw [hcu]; exact hcur,
      by rw [hashes_eq_getD _ _ hh cid]; exact hkey⟩

theorem registered_commitStep (s : ParseState) (c : String) (hr : Registered s) :
    Registered (commitStep s c) := by
  have hheap : (commitStep s c).commitHeap =
      s.commitHeap ++ [⟨c, none, none, [], none⟩] := by
    show (commitClose s).commitHeap ++ [(⟨c, none, none, [], none⟩ : Commit)] =
      s.commitHeap ++ [(⟨c, none, none, [], none⟩ : Commit)]
    rw [commitClose_heap]
  have hcur : (commitStep s c).currentCommit = some s.commitHeap.length := by
    show some (commitClose s).commitHeap.length = some s.commitHeap.length
    rw [commitClose_heap]
  have hcm : (commitStep s c).commits = (commitClose s).commits := rfl
  intro h2 hmem
  rw [hheap, List.map_append] at hmem
  rcases List.mem_append.mp hmem with hin | hin
  · rcases hr h2 hin with ⟨c0, hc0⟩ | ⟨cid, hcur0, hkey0⟩
    · left
      rw [hcm]
      have hcl : ∃ c1, alookup (commitClose s).commits h2 = some c1 := by
        unfold commitClose
        rcases hc : s.currentCommit with _ | cid
        · exact ⟨c0, hc0⟩
        · show ∃ c1,
            alookup (aset s.commits ((s.commitHeap.getD cid defaultCommit).hashKey) cid)
              h2 = some c1
          rw [alookup_aset]
          by_cases hk : h2 = (s.commitHeap.getD cid defaultCommit).hashKey
          · exact ⟨cid, by rw [if_pos hk]⟩
          · exact ⟨c0, by rw [if_neg hk]; exact hc0⟩
      exact hcl
    · left
      rw [hcm]
      have hcl : (commitClose s).commits =
          aset s.commits ((s.commitHeap.getD cid defaultCommit).hashKey) cid := by
        unfold commitClose
        rw [hcur0]
      rw [hcl]
      refine ⟨cid, ?_⟩
      rw [← hkey0]
      exact alookup_aset_self _ _ _
  · right
    simp only [List.map_cons, List.map_nil, List.mem_singleton] at hin
    refine ⟨s.commitHeap.length, hcur, ?_⟩
    rw [hheap, getD_append_len]
    exact hin.symm

theorem stepLine_noncommit_commits (s : ParseState) (l : String) (s' : ParseState)
    (h : stepLine s l = .ok s') (hnc : ∀ c0, classifyLine l ≠ some ("commit", c0)) :
    s'.commits = s.commits := by
  rcases stepLine_cases s l s' h with ⟨rfl, -⟩ | ⟨c, hcl0, -⟩ | ⟨c, hcl0, hsh⟩ |
    ⟨c, hcl0, hsh⟩ | ⟨c, hcl0, hsh⟩ | ⟨c, hcl0, hsh⟩
  · rfl
  · exact absurd hcl0 (hnc c)
  · obtain ⟨ts, s1, d, key, s2, cid, aid, hfd, hkey, hs2, hcc, hak, rfl⟩ := hsh
    obtain ⟨-, -, hcm, -, -⟩ := findDev_eqs s c s1 d ts hfd
    have hs2cm : s2.commits = s1.commits := by rw [hs2]; split <;> rfl
    rw [← hcm, ← hs2cm]
  · obtain ⟨ts, s1, d, key, s2, cid, hfd, hkey, hs2, hcc, rfl⟩ := hsh
    obtain ⟨-, -, hcm, -, -⟩ := findDev_eqs s c s1 d ts hfd
    have hs2cm : s2.commits = s1.commits := by rw [hs2]; split <;> rfl
    rw [← hcm, ← hs2cm]
  · obtain ⟨cid, v, hcc, hv, rfl⟩ := hsh
    rfl
  · obtain ⟨cid, hcc, rfl⟩ := hsh
    rfl

theorem chLine_nil_of_noncommit (l : String)
    (hnc : ∀ c0, classifyLine l ≠ some ("commit", c0)) : chLine l = [] := by
  unfold chLine
  rcases hcl : classifyLine l with _ | ⟨kw, c⟩
  · rfl
  · by_cases hk : kw = "commit"
    · subst hk; exact absurd hcl (hnc c)
    · show (if kw = "commit" then [c] else []) = []
      rw [if_neg hk]

theorem stepLine_registered (s : ParseState) (l : String) (s' : ParseState)
    (h : stepLine s l = .ok s') (hr : Registered s) : Registered s' := by
  by_cases hcom : ∃ c, classifyLine l = some ("commit", c)
  · obtain ⟨c, hcl⟩ := hcom
    rw [stepLine_commit_shape s s' l c h hcl]
    exact registered_commitStep s c hr
  · push_neg at hcom
    have hh : s'.commitHeap.map Commit.hashKey = s.commitHeap.map Commit.hashKey := by
      rw [stepLine_hashes s l s' h, chLine_nil_of_noncommit l hcom, List.append_nil]
    exact registered_of_eqs s s' hh (stepLine_noncommit_commits s l s' h hcom)
      (stepLine_noncommit_current s l s' h hcom) hr

theorem parseLines_registered (ls : List String) (s s' : ParseState)
    (h : parseLines s ls = .ok s') (hr : Registered s) : Registered s' := by
  induction ls generalizing s with
  | nil =>
    simp only [parseLines, Except.ok.injEq] at h
    rw [← h]; exact hr
  | cons l rest ih =>
    obtain ⟨s1, hs1, hrest⟩ := parseLines_cons_ok l rest s s' h
    exact ih s1 hrest (stepLine_registered s l s1 hs1 hr)

theorem flush_registered (s s' : ParseState) (h : flushLast s = .ok s')
    (hr : Registered s) :
    ∀ h2 ∈ s'.commitHeap.map Commit.hashKey, ∃ c, alookup s'.commits h2 = some c := by
  obtain ⟨cid, hcur, hse⟩ := flushLast_ok s s' h
  have hheap : s'.commitHeap = s.commitHeap := by rw [hse]
  have hcm : s'.commits =
      aset s.commits ((s.commitHeap.getD cid defaultCommit).hashKey) cid := by rw [hse]
  intro h2 hmem
  rw [hheap] at hmem
  rw [hcm, alookup_aset]
  rcases hr h2 hmem with ⟨c0, hc0⟩ | ⟨cid0, hcur0, hkey0⟩
  · by_cases hk : h2 = (s.commitHeap.getD cid defaultCommit).hashKey
    · exact ⟨cid, by rw [if_pos hk]⟩
    · exact ⟨c0, by rw [if_neg hk]; exact hc0⟩
  · have hcid : cid0 = cid := by
      rw [hcur] at hcur0
      exact (Option.some.inj hcur0).symm
    rw [hcid] at hkey0
    exact ⟨cid, by rw [if_pos hkey0.symm]⟩

theorem flush_wfs (s s' : ParseState) (h : flushLast s = .ok s') (hw : WFS s) :
    WFS s' := by
  obtain ⟨cid, hcur, hse⟩ := flushLast_ok s s' h
  have hheap : s'.commitHeap = s.commitHeap := by rw [hse]
  have hcur' : s'.currentCommit = none := by rw [hse]
  have hcm : s'.commits =
      aset s.commits ((s.commitHeap.getD cid defaultCommit).hashKey) cid := by rw [hse]
  unfold WFS WFSc at hw ⊢
  rw [hheap, hcur', hcm]
  obtain ⟨h1, h2, h3⟩ := hw
  refine ⟨?_, ?_, h3⟩
  · intro cid0 hc
    simp at hc
  · intro k c hkc
    rw [alookup_aset] at hkc
    by_cases hk : k = (s.commitHeap.getD cid defaultCommit).hashKey
    · rw [if_pos hk] at hkc
      have hc : cid = c := Option.some.inj hkc
      subst hc
      exact ⟨h1 cid hcur, hk.symm⟩
    · rw [if_neg hk] at hkc
      exact h2 k c hkc

theorem commitHashes_append (a b : List String) :
    commitHashes (a ++ b) = commitHashes a ++ commitHashes b := by
  induction a with
  | nil => rfl
  | cons l rest ih => simp [commitHashes, ih, List.append_assoc]

theorem resolveParents_entry (reg : List (String × Nat)) (ps ps' : List (String × PValue))
    (h : resolveParents reg ps = .ok ps') (k : String) (v : PValue)
    (hv : alookup ps k = some v) :
    ∃ c, alookup ps' k = some (.commit c) ∧
      (v = .commit c ∨ ∃ z, v = .str z ∧ alookup reg k = some c) := by
  induction ps generalizing ps' with
  | nil => simp [alookup] at hv
  | cons q rest ih =>
    obtain ⟨k0, v0⟩ := q
    rcases v0 with z0 | cc0
    · simp only [resolveParents] at h
      rcases hr : alookup reg k0 with _ | c0
      · rw [hr] at h; simp at h
      · rw [hr] at h
        rcases hrec : resolveParents reg rest with e | rest'
        · rw [hrec] at h; simp at h
        · rw [hrec] at h
          simp only [Except.ok.injEq] at h
          subst h
          by_cases hk : k0 = k
          · subst hk
            have hv' : PValue.str z0 = v := by
              simpa [alookup] using hv
            exact ⟨c0, by simp [alookup], Or.inr ⟨z0, hv'.symm, hr⟩⟩
          · simp only [alookup] at hv ⊢
            rw [if_neg hk] at hv ⊢
            exact ih rest' hrec hv
    · simp only [resolveParents] at h
      rcases hrec : resolveParents reg rest with e | rest'
      · rw [hrec] at h; simp at h
      · rw [hrec] at h
        simp only [Except.ok.injEq] at h
        subst h
        by_cases hk : k0 = k
        · subst hk
          have hv' : PValue.commit cc0 = v := by
            simpa [alookup] using hv
          exact ⟨cc0, by simp [alookup], Or.inl hv'.symm⟩
        · simp only [alookup] at hv ⊢
          rw [if_neg hk] at hv ⊢
          exact ih rest' hrec hv

theorem resolveLoop_hashes (reg : List (String × Nat)) :
    ∀ (todo : List (String × Nat)) (heap heap' : List Commit),
      resolveLoop reg heap todo = .ok heap' →
      heap'.map Commit.hashKey = heap.map Commit.hashKey := by
  intro todo
  induction todo with
  | nil =>
    intro heap heap' h
    simp only [resolveLoop, Except.ok.injEq] at h
    rw [h]
  | cons e0 rest ih =>
    intro heap heap' h
    obtain ⟨k0, cid0⟩ := e0
    simp only [resolveLoop] at h
    rcases hps : resolveParents reg ((heap.getD cid0 defaultCommit).parents) with e | ps'
    · rw [hps] at h; simp at h
    · rw [hps] at h
      have h2 := ih _ heap' h
      rw [h2]
      exact map_hashKey_set heap cid0 (fun cc => { cc with parents := ps' })
        (fun _ => rfl)

theorem resolveLoop_resolves (reg : List (String × Nat)) :
    ∀ (todo : List (String × Nat)) (heap heap' : List Commit),
      resolveLoop reg heap todo = .ok heap' →
      ∀ cid k v, (∃ k0, (k0, cid) ∈ todo) →
        alookup (heap.getD cid defaultCommit).parents k = some v →
        ∃ c, alookup (heap'.getD cid defaultCommit).parents k = some (.commit c) ∧
          (v = .commit c ∨ ∃ z, v = .str z ∧ alookup reg k = some c) := by
  intro todo
  induction todo with
  | nil =>
    intro heap heap' h cid k v hmem hv
    obtain ⟨k0, hk0⟩ := hmem
    simp at hk0
  | cons e0 rest ih =>
    intro heap heap' h cid k v hmem hv
    obtain ⟨k1, cid1⟩ := e0
    simp only [resolveLoop] at h
    rcases hps : resolveParents reg ((heap.getD cid1 defaultCommit).parents) with e | ps'
    · rw [hps] at h; simp at h
    · rw [hps] at h
      by_cases hcc : cid1 = cid
      · subst hcc
        obtain ⟨c, hc1, hc2⟩ := resolveParents_entry reg _ ps' hps k v hv
        refine ⟨c, ?_, hc2⟩
        have hlt : cid1 < heap.length := by
          by_contra hge
          rw [getD_out _ _ _ (le_of_not_lt hge)] at hv
          simp [defaultCommit, alookup] at hv
        have hset : ((heap.set cid1
            { heap.getD cid1 defaultCommit with parents := ps' }).getD cid1
              defaultCommit).parents = ps' := by
          rw [getD_set_self _ _ _ _ hlt]
        exact resolveLoop_lookup_commit reg rest _ heap' h cid1 k c
          (by rw [hset]; exact hc1)
      · have hmem' : ∃ k0, (k0, cid) ∈ rest := by
          obtain ⟨k0, hk0⟩ := hmem
          rcases List.mem_cons.mp hk0 with heq | hin
          · exfalso
            apply hcc
            injection heq with hx hy
            exact hy.symm
          · exact ⟨k0, hin⟩
        apply ih _ heap' h cid k v hmem'
        rw [getD_set_ne _ _ _ _ _ hcc]
        exact hv

theorem stepLine_hasparent (s : ParseState) (l : String) (s' : ParseState)
    (h : stepLine s l = .ok s') (cid : Nat) (k : String)
    (hp : (alookup (s.commitHeap.getD cid defaultCommit).parents k).isSome) :
    (alookup (s'.commitHeap.getD cid defaultCommit).parents k).isSome := by
  have hlt : cid < s.commitHeap.length := by
    by_contra hge
    rw [getD_out _ _ _ (le_of_not_lt hge)] at hp
    simp [defaultCommit, alookup] at hp
  rcases stepLine_cases s l s' h with ⟨rfl, -⟩ | ⟨c, hcl0, rfl⟩ | ⟨c, hcl0, hsh⟩ |
    ⟨c, hcl0, hsh⟩ | ⟨c, hcl0, hsh⟩ | ⟨c, hcl0, hsh⟩
  · exact hp
  · show (alookup
      ((((commitClose s).commitHeap ++ [(⟨c, none, none, [], none⟩ : Commit)]).getD
        cid defaultCommit)).parents k).isSome
    rw [commitClose_heap, getD_append_left _ _ _ _ hlt]
    exact hp
  · obtain ⟨ts, s1, d, key, s2, cid2, aid, hfd, hkey, hs2, hcc, hak, rfl⟩ := hsh
    obtain ⟨hch, -, -, -, -⟩ := findDev_eqs s c s1 d ts hfd
    have hs2heap : s2.commitHeap = s1.commitHeap := by rw [hs2]; split <;> rfl
    show (alookup (((s2.commitHeap.set cid2
        { s2.commitHeap.getD cid2 defaultCommit with author := some d }).getD cid
          defaultCommit)).parents k).isSome
    rw [hs2heap, hch]
    by_cases hcid : cid2 = cid
    · subst hcid
      rw [getD_set_self _ _ _ _ hlt]
      exact hp
    · rw [getD_set_ne _ _ _ _ _ hcid]
      exact hp
  · obtain ⟨ts, s1, d, key, s2, cid2, hfd, hkey, hs2, hcc, rfl⟩ := hsh
    obtain ⟨hch, -, -, -, -⟩ := findDev_eqs s c s1 d ts hfd
    have hs2heap : s2.commitHeap = s1.commitHeap := by rw [hs2]; split <;> rfl
    show (alookup (((s2.commitHeap.set cid2
        { s2.commitHeap.getD cid2 defaultCommit with committer := some d }).getD cid
          defaultCommit)).parents k).isSome
    rw [hs2heap, hch]
    by_cases hcid : cid2 = cid
    · subst hcid
      rw [getD_set_self _ _ _ _ hlt]
      exact hp
    · rw [getD_set_ne _ _ _ _ _ hcid]
      exact hp
  · obtain ⟨cid2, v, hcc, hv, rfl⟩ := hsh
    show (alookup (((s.commitHeap.set cid2
        { s.commitHeap.getD cid2 defaultCommit with
           parents := aset (s.commitHeap.getD cid2 defaultCommit).parents c v }).getD cid
          defaultCommit)).parents k).isSome
    by_cases hcid : cid2 = cid
    · subst hcid
      rw [getD_set_self _ _ _ _ hlt]
      show (alookup (aset (s.commitHeap.getD cid2 defaultCommit).parents c v) k).isSome
      exact alookup_aset_isSome _ _ _ _ hp
    · rw [getD_set_ne _ _ _ _ _ hcid]
      exact hp
  · obtain ⟨cid2, hcc, rfl⟩ := hsh
    show (alookup (((s.commitHeap.set cid2
        { s.commitHeap.getD cid2 defaultCommit with tree := some c }).getD cid
          defaultCommit)).parents k).isSome
    by_cases hcid : cid2 = cid
    · subst hcid
      rw [getD_set_self _ _ _ _ hlt]
      exact hp
    · rw [getD_set_ne _ _ _ _ _ hcid]
      exact hp

theorem parseLines_hasparent (ls : List String) (s s' : ParseState)
    (h : parseLines s ls = .ok s') (cid : Nat) (k : String)
    (hp : (alookup (s.commitHeap.getD cid defaultCommit).parents k).isSome) :
    (alookup (s'.commitHeap.getD cid defaultCommit).parents k).isSome := by
  induction ls generalizing s with
  | nil =>
    simp only [parseLines, Except.ok.injEq] at h
    rw [← h]; exact hp
  | cons l rest ih =>
    obtain ⟨s1, hs1, hrest⟩ := parseLines_cons_ok l rest s s' h
    exact ih s1 hrest (stepLine_hasparent s l s1 hs1 cid k hp)

/-- Claim C2: the claim says `parse("")` returns empty registries without
error; the code instead reaches the unguarded final flush
`self._commits[self._currentCommit.hashKey] = self._currentCommit` with
`_currentCommit = None` and raises `AttributeError` — both for the empty
string and for an all-blank input. -/
theorem c2_empty_input_crashes :
    parse "" = .error .noneCommit ∧ parse "\n\n" = .error .noneCommit := by
  constructor <;> decide

/-- Claim C3: the claim says a parent hash absent from the commit
registry is kept as a representable unresolved state; the code's
resolution pass instead evaluates `self._commits[parentKey]` and raises
`KeyError` on the input `commit a\nparent b`, where `b` never appears as
a commit record. -/
theorem c3_unresolved_parent_raises :
    parse "commit a\nparent b" = .error (.keyError "b") := by
  decide

/-- Claim C4: the claim says author/committer content without an
angle-bracketed email surfaces a structured `MalformedDeveloperLine`
failure; the code's `(re.findall("<.*>", devKey))[0]` instead raises an
unguarded `IndexError` on the input
`commit a\nauthor Alice 100 +0000`. -/
theorem c4_missing_email_unguarded_crash :
    parse "commit a\nauthor Alice 100 +0000" = .error .noEmailMatch := by
  decide

/-- Claim C1, counterexample: in the input
`commit A\ncommit B\nparent A\ncommit A` the commit `B` lists `parent A`
and `A` appears as the hash of a commit record, yet after the full parse
`B.parents["A"]` is the heap object `0` (the first `A` commit, eagerly
linked) while the registry entry for `A` is the distinct heap object `2`
(the second `A` commit, which overwrote the first): the parent reference
is not the `Commit` object registered under hash `A`. -/
theorem c1_counterexample :
    (parse "commit A\ncommit B\nparent A\ncommit A").isOk = true ∧
    alookup (okState (parse "commit A\ncommit B\nparent A\ncommit A")).commits "B" = some 1 ∧
    alookup ((okState (parse "commit A\ncommit B\nparent A\ncommit A")).commitHeap.getD 1
      defaultCommit).parents "A" = some (.commit 0) ∧
    alookup (okState (parse "commit A\ncommit B\nparent A\ncommit A")).commits "A" = some 2 ∧
    (0 : Nat) ≠ 2 := by
  refine ⟨by decide, by decide, by decide, by decide, by decide⟩

/-- Claim C8, counterexample: in the input
`commit h1\nauthor A <a@x> B 100 +0000\ncommit h2\nauthor A B <a@x> 100 +0000`
the second author line interns the fresh `Developer` object `1` (key
`"A B <a@x>"`), which is set as the author of commit `h2`; but the
commit is recorded in the `commits` map of the unrelated object `0`,
whose composite string `"A B <a@x>"` already occupied the `_authors`
registry, and object `1`'s `commits` map stays empty — the author
handler did not record the commit in the interned developer's map. -/
theorem c8_counterexample :
    (parse "commit h1\nauthor A <a@x> B 100 +0000\ncommit h2\nauthor A B <a@x> 100 +0000").isOk = true ∧
    alookup (okState (parse "commit h1\nauthor A <a@x> B 100 +0000\ncommit h2\nauthor A B <a@x> 100 +0000")).developers "A B <a@x>" = some 1 ∧
    ((okState (parse "commit h1\nauthor A <a@x> B 100 +0000\ncommit h2\nauthor A B <a@x> 100 +0000")).commitHeap.getD 1 defaultCommit).author = some 1 ∧
    ((okState (parse "commit h1\nauthor A <a@x> B 100 +0000\ncommit h2\nauthor A B <a@x> 100 +0000")).devHeap.getD 1 defaultDev).commits = [] ∧
    ((okState (parse "commit h1\nauthor A <a@x> B 100 +0000\ncommit h2\nauthor A B <a@x> 100 +0000")).devHeap.getD 0 defaultDev).commits = [("h1", 0), ("h2", 1)] := by
  refine ⟨by decide, by decide, by decide, by decide, by decide⟩

/-- Claim C5, counterexample: in the input
`commit h1\nauthor A <a@x> B 100 +0000\ncommit h2\nauthor A B <a@x> 100 +0000\ncommit h3\nauthor A B <a@x> 100 +0000`
the author lines of `h2` and `h3` are byte-identical, and both yield the
interned `Developer` object `1` (it authors both commits); but that
developer's `commits` map stays empty — it does not gain one entry per
authored commit, because both entries land in the unrelated object `0`
whose composite string collides in the `_authors` registry. -/
theorem c5_counterexample :
    (parse "commit h1\nauthor A <a@x> B 100 +0000\ncommit h2\nauthor A B <a@x> 100 +0000\ncommit h3\nauthor A B <a@x> 100 +0000").isOk = true ∧
    ((okState (parse "commit h1\nauthor A <a@x> B 100 +0000\ncommit h2\nauthor A B <a@x> 100 +0000\ncommit h3\nauthor A B <a@x> 100 +0000")).commitHeap.getD 1 defaultCommit).author = some 1 ∧
    ((okState (parse "commit h1\nauthor A <a@x> B 100 +0000\ncommit h2\nauthor A B <a@x> 100 +0000\ncommit h3\nauthor A B <a@x> 100 +0000")).commitHeap.getD 2 defaultCommit).author = some 1 ∧
    ((okState (parse "commit h1\nauthor A <a@x> B 100 +0000\ncommit h2\nauthor A B <a@x> 100 +0000\ncommit h3\nauthor A B <a@x> 100 +0000")).devHeap.getD 1 defaultDev).commits = [] := by
  refine ⟨by decide, by decide, by decide, by decide⟩

/-- Claim C9, counterexample: after parsing
`commit h1\nauthor A <a@x> B 100 +0000\ncommitter A B <a@x> 100 +0000`
the key `"A B <a@x>"` is present in both the `_authors` and the
`_committers` registries, but they hold two distinct `Developer` objects
(heap indices `0` and `1`): for equal keys the two registries do not
hold references to the same object. -/
theorem c9_counterexample :
    (parse "commit h1\nauthor A <a@x> B 100 +0000\ncommitter A B <a@x> 100 +0000").isOk = true ∧
    alookup (okState (parse "commit h1\nauthor A <a@x> B 100 +0000\ncommitter A B <a@x> 100 +0000")).authors "A B <a@x>" = some 0 ∧
    alookup (okState (parse "commit h1\nauthor A <a@x> B 100 +0000\ncommitter A B <a@x> 100 +0000")).committers "A B <a@x>" = some 1 ∧
    (0 : Nat) ≠ 1 := by
  refine ⟨by decide, by decide, by decide, by decide⟩

/-- Claim C1 (corrected): with pairwise-distinct commit hashes in the
stream, a `parent P` header appearing inside commit C's record — with P
also the hash of some `commit` header anywhere in the stream — ends,
after `parse` completes its resolution pass, as an actual heap
reference: the commit registered under C's hash has a `parents` entry at
key P holding exactly the commit registered under hash P, not a string
placeholder. -/
theorem c1_parent_linkage_amended
    (text : String) (ls1 ls2 ls3 : List String) (lC lP hC hP : String)
    (hsplit : strSplitOn text '\n' = ls1 ++ lC :: (ls2 ++ lP :: ls3))
    (hclC : classifyLine lC = some ("commit", hC))
    (hclP : classifyLine lP = some ("parent", hP))
    (hmid : ∀ l ∈ ls2, ∀ c0, classifyLine l ≠ some ("commit", c0))
    (hPmem : hP ∈ commitHashes (strSplitOn text '\n'))
    (hnd : (commitHashes (strSplitOn text '\n')).Nodup)
    (s : ParseState) (hok : parse text = .ok s) :
    ∃ cidC cidP,
      alookup s.commits hC = some cidC ∧
      alookup s.commits hP = some cidP ∧
      (s.commitHeap.getD cidP defaultCommit).hashKey = hP ∧
      alookup (s.commitHeap.getD cidC defaultCommit).parents hP =
        some (PValue.commit cidP) := by
  have hok' : parseList (ls1 ++ lC :: (ls2 ++ lP :: ls3)) = .ok s := by
    rw [← hsplit]; exact hok
  rw [hsplit] at hPmem hnd
  obtain ⟨s5, s6, h5, h6, hres⟩ := parseList_ok _ s hok'
  obtain ⟨sA, h5a, h5b⟩ := parseLines_append_ok ls1 _ initState s5 h5
  obtain ⟨sB, hstepC, h5c⟩ := parseLines_cons_ok lC _ sA s5 h5b
  have hB : sB = commitStep sA hC := stepLine_commit_shape sA sB lC hC hstepC hclC
  obtain ⟨sC, h5d, h5e⟩ := parseLines_append_ok ls2 _ sB s5 h5c
  obtain ⟨sD, hstepP, h5f⟩ := parseLines_cons_ok lP ls3 sC s5 h5e
  have hBcur : sB.currentCommit = some sA.commitHeap.length := by
    rw [hB]
    show some (commitClose sA).commitHeap.length = some sA.commitHeap.length
    rw [commitClose_heap]
  have hBlen : sA.commitHeap.length < sB.commitHeap.length := by
    rw [hB]
    show sA.commitHeap.length <
      ((commitClose sA).commitHeap ++ [(⟨hC, none, none, [], none⟩ : Commit)]).length
    rw [commitClose_heap]
    simp
  have hBkey : (sB.commitHeap.getD sA.commitHeap.length defaultCommit).hashKey = hC := by
    rw [hB]
    show (((commitClose sA).commitHeap ++
      [(⟨hC, none, none, [], none⟩ : Commit)]).getD
        sA.commitHeap.length defaultCommit).hashKey = hC
    rw [commitClose_heap, getD_append_len]
  obtain ⟨-, hmBC2, -, -, -, -, hmBC7⟩ := parseLines_mono ls2 sB sC h5d
  have hCcur : sC.currentCommit = some sA.commitHeap.length := by
    rw [parseLines_noncommit_current ls2 sB sC h5d hmid, hBcur]
  have hClen : sA.commitHeap.length < sC.commitHeap.length :=
    lt_of_lt_of_le hBlen hmBC2
  have hCkey : (sC.commitHeap.getD sA.commitHeap.length defaultCommit).hashKey = hC := by
    rw [hmBC7 sA.commitHeap.length hBlen, hBkey]
  obtain ⟨cidX, vX, hXcur, hvX, hDeq⟩ := stepLine_parent_shape sC sD lP hP hstepP hclP
  have hX : cidX = sA.commitHeap.length := by
    rw [hCcur] at hXcur
    exact (Option.some.inj hXcur).symm
  subst hX
  have hDheap : sD.commitHeap = sC.commitHeap.set sA.commitHeap.length
      { sC.commitHeap.getD sA.commitHeap.length defaultCommit with
         parents := aset (sC.commitHeap.getD sA.commitHeap.length defaultCommit).parents
           hP vX } := by
    rw [hDeq]
  have hDhas : (alookup
      (sD.commitHeap.getD sA.commitHeap.length defaultCommit).parents hP).isSome := by
    rw [hDheap, getD_set_self _ _ _ _ hClen]
    show (alookup
      (aset (sC.commitHeap.getD sA.commitHeap.length defaultCommit).parents hP vX)
        hP).isSome
    rw [alookup_aset_self]
    rfl
  have h5has : (alookup
      (s5.commitHeap.getD sA.commitHeap.length defaultCommit).parents hP).isSome :=
    parseLines_hasparent ls3 sD s5 h5f sA.commitHeap.length hP hDhas
  obtain ⟨-, hmCD2, -, -, -, -, hmCD7⟩ := stepLine_mono sC lP sD hstepP
  obtain ⟨-, hmD52, -, -, -, -, hmD57⟩ := parseLines_mono ls3 sD s5 h5f
  have h5len : sA.commitHeap.length < s5.commitHeap.length :=
    lt_of_lt_of_le (lt_of_lt_of_le hClen hmCD2) hmD52
  have h5key : (s5.commitHeap.getD sA.commitHeap.length defaultCommit).hashKey = hC := by
    rw [hmD57 sA.commitHeap.length (lt_of_lt_of_le hClen hmCD2),
      hmCD7 sA.commitHeap.length hClen, hCkey]
  have hwfs5 : WFS s5 := parseLines_wfs _ initState s5 h5 wfs_init
  have hreg5 : Registered s5 := parseLines_registered _ initState s5 h5 registered_init
  have h5hashes : s5.commitHeap.map Commit.hashKey =
      commitHashes (ls1 ++ lC :: (ls2 ++ lP :: ls3)) := by
    have hh := parseLines_hashes _ initState s5 h5
    simpa [initState] using hh
  have hreg6 := flush_registered s5 s6 h6 hreg5
  obtain ⟨hw61, hw62, hw63⟩ := flush_wfs s5 s6 h6 hwfs5
  obtain ⟨cidF, hFcur, hFeq⟩ := flushLast_ok s5 s6 h6
  have h6heap : s6.commitHeap = s5.commitHeap := by rw [hFeq]
  have h6hashes : s6.commitHeap.map Commit.hashKey =
      commitHashes (ls1 ++ lC :: (ls2 ++ lP :: ls3)) := by rw [h6heap, h5hashes]
  have hnd6 : (s6.commitHeap.map Commit.hashKey).Nodup := by rw [h6hashes]; exact hnd
  have hPmem6 : hP ∈ s6.commitHeap.map Commit.hashKey := by rw [h6hashes]; exact hPmem
  obtain ⟨cidP, hPreg⟩ := hreg6 hP hPmem6
  have hPfacts := hw62 hP cidP hPreg
  have hCmem6 : hC ∈ s6.commitHeap.map Commit.hashKey := by
    rw [h6hashes, commitHashes_append]
    refine List.mem_append_right _ ?_
    show hC ∈ chLine lC ++ commitHashes (ls2 ++ lP :: ls3)
    have hch : chLine lC = [hC] := by simp [chLine, hclC]
    rw [hch]
    exact List.mem_cons_self _ _
  obtain ⟨cidC', hCreg⟩ := hreg6 hC hCmem6
  have hCfacts := hw62 hC cidC' hCreg
  have h6key : (s6.commitHeap.getD sA.commitHeap.length defaultCommit).hashKey = hC := by
    rw [h6heap]; exact h5key
  have h6len : sA.commitHeap.length < s6.commitHeap.length := by
    rw [h6heap]; exact h5len
  have hCC : cidC' = sA.commitHeap.length :=
    nodup_map_getD_inj Commit.hashKey s6.commitHeap cidC' sA.commitHeap.length
      defaultCommit hnd6 hCfacts.1 h6len (by rw [hCfacts.2, h6key])
  rw [hCC] at hCreg
  have h6has : (alookup
      (s6.commitHeap.getD sA.commitHeap.length defaultCommit).parents hP).isSome := by
    rw [h6heap]; exact h5has
  rcases hv6 : alookup (s6.commitHeap.getD sA.commitHeap.length defaultCommit).parents hP
    with _ | v
  · rw [hv6] at h6has; simp at h6has
  · have hgood := hw63 (s6.commitHeap.getD sA.commitHeap.length defaultCommit)
      (getD_lt_length_mem _ _ _ h6len) (hP, v) (alookup_mem _ _ _ hv6)
    obtain ⟨heap2, hloop, hseq⟩ := resolveCommits_ok s6 s hres
    obtain ⟨c, hcres, hprov⟩ := resolveLoop_resolves s6.commits s6.commits
      s6.commitHeap heap2 hloop sA.commitHeap.length hP v
      ⟨hC, alookup_mem _ _ _ hCreg⟩ hv6
    have hc : c = cidP := by
      rcases hprov with hvc | ⟨z, hvz, hlook⟩
      · rcases hgood with ⟨z, hz⟩ | ⟨pc, hpc, hpclen, hpckey⟩
        · rw [hvc] at hz
          exact absurd (show PValue.commit c = PValue.str z from hz) (by simp)
        · rw [hvc] at hpc
          have hpc' : PValue.commit c = PValue.commit pc := hpc
          injection hpc' with hcp
          subst hcp
          exact nodup_map_getD_inj Commit.hashKey s6.commitHeap c cidP defaultCommit
            hnd6 hpclen hPfacts.1 (by rw [hpckey, hPfacts.2])
      · rw [hPreg] at hlook
        exact (Option.some.inj hlook).symm
    have hscommits : s.commits = s6.commits := by rw [hseq]
    have hsheap : s.commitHeap = heap2 := by rw [hseq]
    have hh2 : heap2.map Commit.hashKey = s6.commitHeap.map Commit.hashKey :=
      resolveLoop_hashes s6.commits s6.commits s6.commitHeap heap2 hloop
    refine ⟨sA.commitHeap.length, cidP, ?_, ?_, ?_, ?_⟩
    · rw [hscommits]; exact hCreg
    · rw [hscommits]; exact hPreg
    · rw [hsheap, hashes_eq_getD s6.commitHeap heap2 hh2 cidP]
      exact hPfacts.2
    · rw [hsheap]
      rw [hc] at hcres
      exact hcres

/-- Concrete C1 round trip: in `commit a\nparent b\ncommit b` the parent
hash `b` is registered only after the `parent` line has been handled,
yet on the final state commit `a`'s parents entry at `b` holds the heap
reference of the commit registered under `b`. -/
theorem c1_witness :
    ∃ cidC cidP,
      alookup (okState (parse "commit a\nparent b\ncommit b")).commits "a" =
        some cidC ∧
      alookup (okState (parse "commit a\nparent b\ncommit b")).commits "b" =
        some cidP ∧
      ((okState (parse "commit a\nparent b\ncommit b")).commitHeap.getD cidP
        defaultCommit).hashKey = "b" ∧
      alookup ((okState (parse "commit a\nparent b\ncommit b")).commitHeap.getD cidC
        defaultCommit).parents "b" = some (PValue.commit cidP) := by
  have hok : parse "commit a\nparent b\ncommit b" = .ok
      ⟨[⟨"a", none, none, [("b", .commit 1)], none⟩, ⟨"b", none, none, [], none⟩],
       [], none, [("a", 0), ("b", 1)], [], [], []⟩ := by decide
  have hmain := c1_parent_linkage_amended "commit a\nparent b\ncommit b"
    [] [] ["commit b"] "commit a" "parent b" "a" "b"
    (by decide) (by decide) (by decide)
    (by intro l hl; simp at hl) (by decide) (by decide) _ hok
  rw [hok]
  exact hmain

end PyGitLog
